import Mathlib

/-!
Verification of the glob-pattern-to-regular-expression compiler of the
book-of-spells repository (module `regex`: `convertGlobToRegexString`,
`findMatchingParen`, `extractNegatedGlobs`, `buildGlobVariant`,
`convertGlobNegationsToRegex`, `convertGlobToRegex`).

The JavaScript source is embedded shallowly over `List Char` (a JS string is
a sequence of code units; the patterns involved here are plain ASCII, so
`Char` is faithful).  Index-based loops with lookahead (`glob[i + 1]`) are
embedded as left folds over the character list with an explicit "pending"
state holding the (at most one) character whose handling awaits the next
character; this is the standard step-relation reading of such a loop and
keeps every definition structurally recursive, hence executable by kernel
reduction.

The platform `RegExp` object is modelled by an executable reading of the
regex source strings this compiler emits, together with a prioritized
(backtracking-order) matcher mirroring the ECMAScript semantics of greedy
quantifiers, ordered alternation and `exec`-style searching.  A `RegExp`
constructor failure (a JavaScript `SyntaxError`) is modelled by
`Option.none`.
-/

namespace BookOfSpells

/-! ## The translator `convertGlobToRegexString`

The source scans the glob left to right maintaining `insideSquareBrackets`,
`insideCurlyBraces` and a stack of pending extended-glob markers.  Four of
its rules need the one-character lookahead `next = glob[i + 1]`: the glob
escape `\x`, the extglob opener `X(` for `X` in `?*+@`, the globstar `**`
(which may additionally consume a following `/`), and the distinction of a
single `*` / `?` / `+` / `@` from those openers.  The fold below defers
exactly those characters into a `TPend` value resolved by the next
character (or by the end of input). -/

/-- Test used by the source for the extended-glob prefix characters `?*+@`
(the string membership test on the four characters). -/
def isExtglobChar (c : Char) : Bool :=
  c = '?' || c = '*' || c = '+' || c = '@'

/-- Lookup of the closing suffix for a popped extended-glob marker
(the source's map from marker to one of the four closers). -/
def suffixFor (c : Char) : List Char :=
  if c = '?' then [')', '?']
  else if c = '*' then [')', '*']
  else if c = '+' then [')', '+']
  else [')']

/-- Membership in the source's rule-11 escape list: dot, pipe, plus, dollar,
caret, both parentheses, both braces, backslash, slash and hyphen. -/
def inEscapeSet (c : Char) : Bool :=
  c = '.' || c = '|' || c = '+' || c = '$' || c = '^' || c = '(' || c = ')' ||
  c = '\x7b' || c = '\x7d' || c = '\\' || c = '/' || c = '-'

/-- Deferred lookahead state of the translator: nothing pending, a pending
backslash (glob escape), a pending `?` / `*` / `+` / `@` (extglob opener or
single-character wildcard, decided by the next character), or a just-emitted
globstar whose optional following `/` is still to be consumed. -/
inductive TPend where
  | idle : TPend
  | esc : TPend
  | ext : Char → TPend
  | sstar : TPend
  deriving DecidableEq, Repr

/-- Loop state of the translator scan: the source's `insideSquareBrackets`,
`insideCurlyBraces` and `extglobStack` variables plus the deferred
lookahead. -/
structure TState where
  sq : Bool
  curly : Bool
  stack : List Char
  pend : TPend
  deriving DecidableEq, Repr

/-- Initial translator state. -/
def TState.init : TState := ⟨false, false, [], .idle⟩

/-- One step of the translator for a character needing no lookahead and
outside a character class: the `)`-closes-extglob rule, the single `*` and
`?` wildcards (reached from a resolved pending marker or at end of input),
the `[`, brace and comma rules, pipe inside an extglob, the rule-11 escape
list, and the default case.  Returns the emitted characters and the new
square/curly/stack state. -/
def plainStep (c : Char) (curly : Bool) (stack : List Char) :
    List Char × Bool × Bool × List Char :=
  if c = ')' then
    match stack with
    | t :: stack' => (suffixFor t, false, curly, stack')
    | [] => (['\\', ')'], false, curly, [])
  else if c = '*' then
    (['[', '^', '\\', '/', '\\', '\\', ']', '*'], false, curly, stack)
  else if c = '?' then
    (['[', '^', '\\', '/', '\\', '\\', ']'], false, curly, stack)
  else if c = '[' then
    (['['], true, curly, stack)
  else if c = '\x7b' then
    (['('], false, true, stack)
  else if c = '\x7d' then
    ([')'], false, false, stack)
  else if c = ',' && curly then
    (['|'], false, curly, stack)
  else if c = '|' && !stack.isEmpty then
    (['|'], false, curly, stack)
  else if inEscapeSet c then
    (['\\', c], false, curly, stack)
  else
    ([c], false, curly, stack)

/-- Core step on a character with nothing pending.  A backslash or one of
`?*+@` (outside a class) becomes pending; a character inside a class is
handled by the source's in-class rule (`]` closes, `!` becomes `^`, all
else verbatim); everything else goes through `plainStep`. -/
def tCore (st : TState) (c : Char) : TState × List Char :=
  if c = '\\' then ({ st with pend := .esc }, [])
  else if st.sq then
    if c = ']' then ({ st with sq := false }, [']'])
    else if c = '!' then (st, ['^'])
    else (st, [c])
  else if isExtglobChar c then ({ st with pend := .ext c }, [])
  else
    let r := plainStep c st.curly st.stack
    ({ st with sq := r.2.1, curly := r.2.2.1, stack := r.2.2.2 }, r.1)

/-- Full translator step: resolve any pending lookahead against the current
character, then (when the pending resolution does not consume it) process
the character itself. -/
def tStep (st : TState) (c : Char) : TState × List Char :=
  match st.pend with
  | .idle => tCore st c
  | .esc => ({ st with pend := .idle }, ['\\', c])
  | .ext e =>
    let st' := { st with pend := .idle }
    if c = '(' then
      ({ st' with stack := e :: st'.stack }, ['(', '?', ':'])
    else if e = '*' && c = '*' then
      ({ st' with pend := .sstar }, ['.', '*'])
    else
      let r := plainStep e st'.curly st'.stack
      let st1 := { st' with sq := r.2.1, curly := r.2.2.1, stack := r.2.2.2 }
      let r2 := tCore st1 c
      (r2.1, r.1 ++ r2.2)
  | .sstar =>
    let st' := { st with pend := .idle }
    if c = '/' then (st', []) else tCore st' c

/-- End-of-input resolution of a pending lookahead: a trailing backslash is
emitted verbatim inside a class and via the rule-11 escape outside one
(matching the source, whose escape branch requires a following character);
a trailing `?*+@` marker is its single-character translation; a consumed
globstar needs nothing more. -/
def tFlush (st : TState) : List Char :=
  match st.pend with
  | .idle => []
  | .esc => if st.sq then ['\\'] else (plainStep '\\' st.curly st.stack).1
  | .ext e => (plainStep e st.curly st.stack).1
  | .sstar => []

/-- Run the translator scan from a state over the remaining input, returning
the final state and the characters emitted. -/
def tRun (st : TState) : List Char → TState × List Char
  | [] => (st, [])
  | c :: cs =>
    let r := tStep st c
    let r2 := tRun r.1 cs
    (r2.1, r.2 ++ r2.2)

/-- List-level translator: run the scan from the initial state, flush the
pending lookahead, then optionally wrap the result in the `^` and `$`
anchors, exactly as the source's final step does. -/
def convertGlobToRegexStringL (glob : List Char) (anchored : Bool) : List Char :=
  let r := tRun TState.init glob
  let body := r.2 ++ tFlush r.1
  if anchored then '^' :: (body ++ ['$']) else body

/-- The source's `convertGlobToRegexString(glob, anchored = false)`. -/
def convertGlobToRegexString (glob : String) (anchored : Bool := false) : String :=
  ⟨convertGlobToRegexStringL glob.data anchored⟩

example : convertGlobToRegexString "[a!b]" = "[a^b]" := by decide
example : convertGlobToRegexString "!(test" = "!\\(test" := by decide
example : convertGlobToRegexString "*.js" = "[^\\/\\\\]*\\.js" := by decide
example : convertGlobToRegexString "file?(.min).js" = "file(?:\\.min)?\\.js" := by decide
example : convertGlobToRegexString "" true = "^$" := by decide
example : convertGlobToRegexString "a/**/b" = "a\\/.*b" := by decide
example : convertGlobToRegexString "a.\x7bjs,ts\x7d" = "a\\.(js|ts)" := by decide

/-! ## The negation extractor

`findMatchingParen` walks the string from just after an opening parenthesis
with a depth counter seeded at 1; `extractNegatedGlobs` scans for the
two-character sequence `!(`, records a descriptor for each candidate whose
close is found, and resumes immediately after the close.  The index loop of
the source is embedded with an explicit position argument; the scan of
`extractNegatedGlobs` advances its position by arbitrary jumps, so it
carries a step budget that the wrapper seeds with `length + 1`, an upper
bound on the number of loop iterations (each iteration advances the
position by at least one). -/

/-- Depth scan of `findMatchingParen`: `i` is the absolute index of the head
of the remaining list, `depth` the current parenthesis depth.  Both the
increment on `(` and the decrement on `)` of the source are applied before
the zero test. -/
def fmpScan : List Char → Nat → Int → Option Nat
  | [], _, _ => none
  | c :: cs, i, depth =>
    let d := depth + (if c = '(' then 1 else 0) - (if c = ')' then 1 else 0)
    if d = 0 then some i else fmpScan cs (i + 1) d

/-- The source's `findMatchingParen(str, openIndex)`: index of the closing
parenthesis matching the opening one at `openIndex`, with the source's
not-found result `-1` rendered as `none`. -/
def findMatchingParen (str : List Char) (openIndex : Nat) : Option Nat :=
  fmpScan (str.drop (openIndex + 1)) (openIndex + 1) 1

/-- A negation descriptor `{start, end, inner}` of the source; the source's
field `end` is a Lean keyword and is called `stop` here. -/
structure Neg where
  start : Nat
  stop : Nat
  inner : List Char
  deriving DecidableEq, Repr

/-- Scan loop of `extractNegatedGlobs`: at position `i`, skip unless the
two-character sequence `!(` starts here; on a candidate, look for the
matching close, silently skipping the candidate when there is none, and
otherwise record the descriptor and resume just after the close.  The
out-of-range lookahead `glob[i + 1]` of the source is an `undefined`
comparing unequal to `(`, rendered by the default character of `getD`. -/
def extractAux (glob : List Char) : Nat → Nat → List Neg
  | 0, _ => []
  | fuel + 1, i =>
    if i < glob.length then
      if glob.getD i ' ' = '!' && glob.getD (i + 1) ' ' = '(' then
        match findMatchingParen glob (i + 1) with
        | none => extractAux glob fuel (i + 1)
        | some close =>
          ⟨i, close, (glob.drop (i + 2)).take (close - (i + 2))⟩ ::
            extractAux glob fuel (close + 1)
      else extractAux glob fuel (i + 1)
    else []

/-- The source's `extractNegatedGlobs(glob)`. -/
def extractNegatedGlobs (glob : List Char) : List Neg :=
  extractAux glob (glob.length + 1) 0

/-- Replacement loop of `buildGlobVariant`: copy the span before each
descriptor, then either expand the descriptor as `@(` + inner + `)` (when
its position equals `expandIndex`) or neutralize it to `*`, and finally
copy the tail after the last descriptor. -/
def buildAux (glob : List Char) (expandIndex : Int) :
    List Neg → Nat → Nat → List Char
  | [], lastEnd, _ => glob.drop lastEnd
  | n :: rest, lastEnd, idx =>
    ((glob.drop lastEnd).take (n.start - lastEnd)) ++
      (if (idx : Int) = expandIndex then '@' :: '(' :: (n.inner ++ [')']) else ['*']) ++
      buildAux glob expandIndex rest (n.stop + 1) (idx + 1)

/-- The source's `buildGlobVariant(glob, negations, expandIndex)`; the
sentinel `expandIndex = -1` (or any out-of-range value) neutralizes every
negation. -/
def buildGlobVariant (glob : List Char) (negations : List Neg)
    (expandIndex : Int) : List Char :=
  buildAux glob expandIndex negations 0 0

example : extractNegatedGlobs "!(test).js".data = [⟨0, 6, "test".data⟩] := by decide
example : findMatchingParen "!(a!(b)c)x".data 1 = some 8 := by decide
example : extractNegatedGlobs "!(test".data = [] := by decide
example :
    buildGlobVariant "!(test).js".data (extractNegatedGlobs "!(test).js".data) (-1)
      = "*.js".data := by decide
example :
    buildGlobVariant "!(test).js".data (extractNegatedGlobs "!(test).js".data) 0
      = "@(test).js".data := by decide
example :
    buildGlobVariant "!(a)/!(b)".data (extractNegatedGlobs "!(a)/!(b)".data) 1
      = "*/@(b)".data := by decide

/-! ## Model of the platform regular-expression object

The compiler hands its emitted source strings to `new RegExp`.  The model
below reads such a source string into a small abstract syntax (literals,
the dot, character classes with ranges and the `dDwWsS` shorthands, the
`^` `$` and word-boundary assertions, concatenation, alternation and the
greedy star; `e?` is read as `alt e eps` and `e+` as `cat e (star e)`,
which have the same prioritized backtracking order) with a single
character-driven state machine, and renders a constructor `SyntaxError` as
`none`.  Constructs this compiler can never emit (lookaround, named groups,
backreferences, hexadecimal escapes, lazy quantifiers, brace quantifiers)
are out of scope: the model maps them to a parse failure or to literal
characters, as noted at each site. -/

/-- Decimal digit test (the `\d` class). -/
def isDigitChar (c : Char) : Bool := '0' ≤ c && c ≤ '9'

/-- Word-character test (the `\w` class and word boundaries). -/
def isWordChar (c : Char) : Bool :=
  isDigitChar c || ('a' ≤ c && c ≤ 'z') || ('A' ≤ c && c ≤ 'Z') || c = '_'

/-- Whitespace test (the `\s` class), on the ASCII part of the ECMAScript
white-space set; the compiler under verification never emits `\s` itself. -/
def isSpaceChar (c : Char) : Bool :=
  c = ' ' || c = '\t' || c = '\n' || c = '\r' || c = '\x0b' || c = '\x0c'

/-- ECMAScript line terminators, which the dot does not match. -/
def isLineTerm (c : Char) : Bool :=
  c = '\n' || c = '\r' || c = '\u2028' || c = '\u2029'

/-- One member of a bracket expression: a single character, an inclusive
range, or one of the six class-escape shorthands. -/
inductive CItem where
  | single (c : Char)
  | range (a b : Char)
  | shd | shD | shw | shW | shs | shS
  deriving DecidableEq, Repr

/-- Membership of a character in one bracket-expression member. -/
def citemMatch (c : Char) : CItem → Bool
  | .single a => c = a
  | .range a b => a ≤ c && c ≤ b
  | .shd => isDigitChar c
  | .shD => !isDigitChar c
  | .shw => isWordChar c
  | .shW => !isWordChar c
  | .shs => isSpaceChar c
  | .shS => !isSpaceChar c

/-- Abstract syntax of the regular-expression fragment the compiler emits. -/
inductive Regex where
  | eps
  | lit (c : Char)
  | dot
  | cls (neg : Bool) (items : List CItem)
  | bol
  | eol
  | wordB
  | nwordB
  | cat (p q : Regex)
  | alt (p q : Regex)
  | star (p : Regex)
  deriving DecidableEq, Repr

/-- Resolution of a class escape `\c` inside a bracket expression: either a
shorthand member or a literal character (control escapes resolved; an
identity escape otherwise, which is what every character the compiler puts
after a backslash inside a class denotes). -/
def classEsc (c : Char) : CItem ⊕ Char :=
  if c = 'd' then .inl .shd
  else if c = 'D' then .inl .shD
  else if c = 'w' then .inl .shw
  else if c = 'W' then .inl .shW
  else if c = 's' then .inl .shs
  else if c = 'S' then .inl .shS
  else if c = 'n' then .inr '\n'
  else if c = 't' then .inr '\t'
  else if c = 'r' then .inr '\r'
  else if c = 'f' then .inr '\x0c'
  else if c = 'v' then .inr '\x0b'
  else if c = 'b' then .inr '\x08'
  else if c = '0' then .inr '\x00'
  else .inr c

/-- Resolution of a top-level escape `\c`: class shorthands, word-boundary
assertions, control escapes, and identity escapes for everything else (the
only escapes this compiler emits are identity escapes of its rule-11 list
and the verbatim pass-through of glob escapes). -/
def escAtom (c : Char) : Regex :=
  if c = 'd' then .cls false [.shd]
  else if c = 'D' then .cls false [.shD]
  else if c = 'w' then .cls false [.shw]
  else if c = 'W' then .cls false [.shW]
  else if c = 's' then .cls false [.shs]
  else if c = 'S' then .cls false [.shS]
  else if c = 'b' then .wordB
  else if c = 'B' then .nwordB
  else if c = 'n' then .lit '\n'
  else if c = 't' then .lit '\t'
  else if c = 'r' then .lit '\r'
  else if c = 'f' then .lit '\x0c'
  else if c = 'v' then .lit '\x0b'
  else if c = '0' then .lit '\x00'
  else .lit c

/-- Pending tail of a bracket-expression scan: nothing, a literal atom that
may yet become the lower end of a range, or such an atom followed by a
dash. -/
inductive CTail where
  | nil
  | pend (c : Char)
  | pendDash (c : Char)
  deriving DecidableEq, Repr

/-- State of a bracket-expression scan: whether we are just after the
opening `[` (where `^` negates), the negation flag, the members seen so
far, the pending tail, and whether a class escape is half-read. -/
structure ClsSt where
  first : Bool
  neg : Bool
  items : List CItem
  tail : CTail
  esc : Bool
  deriving DecidableEq, Repr

/-- Bracket-expression state just after `[`. -/
def clsInit : ClsSt := ⟨true, false, [], .nil, false⟩

/-- Result of one bracket-expression step: a syntax error, the closed class,
or the updated scan state. -/
inductive ClsRes where
  | err
  | close (neg : Bool) (items : List CItem)
  | cont (cs : ClsSt)
  deriving DecidableEq, Repr

/-- Members of a class with its pending tail committed (used when `]`
closes the class: a pending atom, and a pending dash, are literal). -/
def commitTail (items : List CItem) : CTail → List CItem
  | .nil => items
  | .pend p => items ++ [.single p]
  | .pendDash p => items ++ [.single p, .single '-']

/-- Fold a resolved literal atom into the scan: it may start a range, close
a pending range (erring on a reversed range, as the platform does), or
follow a committed atom. -/
def clsAtom (cs : ClsSt) (c : Char) : ClsRes :=
  match cs.tail with
  | .nil => .cont { cs with first := false, esc := false, tail := .pend c }
  | .pend p =>
    .cont { cs with first := false, esc := false, tail := .pend c,
                    items := cs.items ++ [.single p] }
  | .pendDash p =>
    if p ≤ c then
      .cont { cs with first := false, esc := false, tail := .nil,
                      items := cs.items ++ [.range p c] }
    else .err

/-- Fold a resolved shorthand into the scan: a shorthand cannot delimit a
range, so an adjacent dash stays literal (the Annex B web semantics). -/
def clsShorthand (cs : ClsSt) (item : CItem) : ClsRes :=
  match cs.tail with
  | .nil => .cont { cs with first := false, esc := false, tail := .nil,
                            items := cs.items ++ [item] }
  | .pend p =>
    .cont { cs with first := false, esc := false, tail := .nil,
                    items := cs.items ++ [.single p, item] }
  | .pendDash p =>
    .cont { cs with first := false, esc := false, tail := .nil,
                    items := cs.items ++ [.single p, .single '-', item] }

/-- One step of the bracket-expression scan. -/
def clsStep (cs : ClsSt) (c : Char) : ClsRes :=
  if cs.esc then
    match classEsc c with
    | .inl item => clsShorthand cs item
    | .inr a => clsAtom cs a
  else if c = '\\' then .cont { cs with first := false, esc := true }
  else if c = ']' then .close cs.neg (commitTail cs.items cs.tail)
  else if cs.first && c = '^' then .cont { cs with first := false, neg := true }
  else if c = '-' then
    match cs.tail with
    | .pend p => .cont { cs with first := false, tail := .pendDash p }
    | _ => clsAtom cs c
  else clsAtom cs c

/-- Mode of the source-reading state machine: ordinary position, just after
a top-level backslash, just after `(`, just after `(?`, or inside a bracket
expression. -/
inductive PMode where
  | norm
  | esc
  | grpOpen
  | grpOpenQ
  | inCls (cs : ClsSt)
  deriving DecidableEq, Repr

/-- One suspended group: the alternatives and sequence accumulated at the
enclosing level when its `(` was read. -/
structure Frame where
  alts : List Regex
  seq : List Regex
  deriving DecidableEq, Repr

/-- State of the source reading: suspended enclosing groups, the completed
alternatives of the current level (most recent first), the atoms of the
current sequence (most recent first), and the mode. -/
structure PState where
  stack : List Frame
  alts : List Regex
  seq : List Regex
  mode : PMode
  deriving DecidableEq, Repr

/-- Initial reading state. -/
def pInit : PState := ⟨[], [], [], .norm⟩

/-- A sequence accumulated in reverse, folded into a concatenation. -/
def seqFinish (seq : List Regex) : Regex :=
  seq.foldl (fun acc r => .cat r acc) .eps

/-- Alternatives accumulated in reverse followed by the final sequence,
folded into a left-priority alternation. -/
def altFinish (alts : List Regex) (seq : List Regex) : Regex :=
  alts.foldl (fun acc a => .alt a acc) (seqFinish seq)

/-- The four assertions, which no quantifier may apply to. -/
def isAnchorAtom : Regex → Bool
  | .bol => true
  | .eol => true
  | .wordB => true
  | .nwordB => true
  | _ => false

/-- Apply a quantifier to the preceding atom; a quantifier with nothing to
repeat, or on an assertion, is a syntax error. -/
def quantApply (q : Regex → Regex) (st : PState) : Option PState :=
  match st.seq with
  | [] => none
  | a :: s' => if isAnchorAtom a then none else some { st with seq := q a :: s' }

/-- The ordinary-position step of the source reading.  A bare `{`, `}` or
`]` is a literal (the web grammar; this compiler never emits them outside
classes anyway). -/
def stepNorm (st : PState) (c : Char) : Option PState :=
  if c = '\\' then some { st with mode := .esc }
  else if c = '[' then some { st with mode := .inCls clsInit }
  else if c = '(' then
    some ⟨⟨st.alts, st.seq⟩ :: st.stack, [], [], .grpOpen⟩
  else if c = ')' then
    match st.stack with
    | [] => none
    | f :: fs => some ⟨fs, f.alts, altFinish st.alts st.seq :: f.seq, .norm⟩
  else if c = '|' then some { st with alts := seqFinish st.seq :: st.alts, seq := [] }
  else if c = '*' then quantApply .star st
  else if c = '+' then quantApply (fun r => .cat r (.star r)) st
  else if c = '?' then quantApply (fun r => .alt r .eps) st
  else if c = '^' then some { st with seq := .bol :: st.seq }
  else if c = '$' then some { st with seq := .eol :: st.seq }
  else if c = '.' then some { st with seq := .dot :: st.seq }
  else some { st with seq := .lit c :: st.seq }

/-- One step of the source reading.  After `(?` only the non-capturing `:`
is accepted (the compiler emits groups only as `(?:` or as the bare `(` of
a brace alternation); a capturing and a non-capturing group match alike
here since nothing in scope refers back to captures. -/
def pStep (st : PState) (c : Char) : Option PState :=
  match st.mode with
  | .norm => stepNorm st c
  | .esc => some { st with mode := .norm, seq := escAtom c :: st.seq }
  | .grpOpen =>
    if c = '?' then some { st with mode := .grpOpenQ }
    else stepNorm { st with mode := .norm } c
  | .grpOpenQ => if c = ':' then some { st with mode := .norm } else none
  | .inCls cs =>
    match clsStep cs c with
    | .err => none
    | .close neg items => some { st with mode := .norm, seq := .cls neg items :: st.seq }
    | .cont cs' => some { st with mode := .inCls cs' }

/-- End of the source: an unterminated escape, class or group is a syntax
error; otherwise the accumulated alternation is the parsed expression. -/
def pFinish (st : PState) : Option Regex :=
  match st.mode, st.stack with
  | .norm, [] => some (altFinish st.alts st.seq)
  | _, _ => none

/-- Reading of a whole regular-expression source string, `none` standing
for the constructor's `SyntaxError`. -/
def parseRegex (src : List Char) : Option Regex :=
  (src.foldlM pStep pInit) >>= pFinish

example : parseRegex "^$".data = some (.cat .bol (.cat .eol .eps)) := by decide
example :
    parseRegex "[^\\/\\\\]*\\.js".data =
      some (.cat (.star (.cls true [.single '/', .single '\\']))
        (.cat (.lit '.') (.cat (.lit 'j') (.cat (.lit 's') .eps)))) := by decide
example :
    parseRegex "(?:test)\\.js".data =
      some (.cat (.cat (.lit 't') (.cat (.lit 'e') (.cat (.lit 's') (.cat (.lit 't') .eps))))
        (.cat (.lit '.') (.cat (.lit 'j') (.cat (.lit 's') .eps)))) := by decide
example : parseRegex "(a|b".data = none := by decide
example : parseRegex "[ab".data = none := by decide
example : parseRegex "*a".data = none := by decide

/-! ## The matcher

`mrunF` lists, in the engine's backtracking order, the end positions of the
matches of an expression starting at a given position of the subject: a
greedy star tries a further (necessarily advancing, per the ECMAScript
empty-repetition rule) iteration before stopping, and alternation prefers
its left arm, so the head of the list is the end position the platform
engine reports.  It recurses on an explicit step budget so that it stays
structurally recursive and hence computable by kernel reduction;
`regexFuel` is a budget sufficient for every search (proved below against
the declarative `Span` semantics). -/

/-- Syntactic size of an expression, used for the step budget. -/
def rsize : Regex → Nat
  | .cat p q => rsize p + rsize q + 1
  | .alt p q => rsize p + rsize q + 1
  | .star p => rsize p + 1
  | _ => 1

/-- Is the position just before `i` inside a word?  (Out-of-range reads are
non-word, like the platform's boundary rule.) -/
def prevWord (s : List Char) (i : Nat) : Bool :=
  decide (0 < i) && isWordChar (s.getD (i - 1) ' ')

/-- Is the position `i` itself on a word character? -/
def curWord (s : List Char) (i : Nat) : Bool :=
  decide (i < s.length) && isWordChar (s.getD i ' ')

/-- Prioritized list of end positions of matches of `r` at position `i` of
`s`, within the given step budget (an exhausted budget yields no matches;
`regexFuel` below always suffices). -/
def mrunF (s : List Char) : Nat → Regex → Nat → List Nat
  | 0, _, _ => []
  | fuel + 1, r, i =>
    match r with
    | .eps => [i]
    | .lit c => if i < s.length && s.getD i ' ' = c then [i + 1] else []
    | .dot => if i < s.length && !isLineTerm (s.getD i ' ') then [i + 1] else []
    | .cls neg items =>
      if i < s.length && (items.any (citemMatch (s.getD i ' ')) != neg) then [i + 1] else []
    | .bol => if i = 0 then [i] else []
    | .eol => if i = s.length then [i] else []
    | .wordB => if prevWord s i != curWord s i then [i] else []
    | .nwordB => if prevWord s i == curWord s i then [i] else []
    | .cat p q => (mrunF s fuel p i).flatMap (fun j => mrunF s fuel q j)
    | .alt p q => mrunF s fuel p i ++ mrunF s fuel q i
    | .star p =>
      ((mrunF s fuel p i).filter (fun j => i < j)).flatMap
        (fun j => mrunF s fuel (.star p) j) ++ [i]

/-- A step budget sufficient for any search of `r` in `s`. -/
def regexFuel (s : List Char) (r : Regex) : Nat :=
  (s.length + 1) * (rsize r + 1)

/-- End positions of the matches of `r` at position `i`, in backtracking
order, with the canonical budget. -/
def mpos (r : Regex) (s : List Char) (i : Nat) : List Nat :=
  mrunF s (regexFuel s r) r i

/-- The `exec` search of the platform: try successive start positions from
`start`; at the first position with a match, report that position and the
end of the match the backtracking engine finds first. -/
def execFrom (r : Regex) (s : List Char) (start : Nat) : Option (Nat × Nat) :=
  (List.range' start (s.length + 1 - start)).findSome? (fun i =>
    match mpos r s i with
    | [] => none
    | j :: _ => some (i, j))

/-- The `test` operation of a compiled (unanchored) regular expression:
some occurrence exists. -/
def reTest (r : Regex) (s : List Char) : Bool :=
  (execFrom r s 0).isSome

/-! ## The compiled matchers and the public entry point -/

/-- A successfully constructed platform regular expression: its source and
the parsed form, with the parse fact carried along. -/
structure CompiledRegex where
  source : List Char
  ast : Regex
  hparse : parseRegex source = some ast

/-- The `new RegExp(src)` constructor: `none` models the thrown
`SyntaxError`. -/
def newRegExp (src : List Char) : Option CompiledRegex :=
  match h : parseRegex src with
  | some r => some ⟨src, r, h⟩
  | none => none

/-- A compiled glob matcher: either a platform regular expression, or the
negation object of `convertGlobNegationsToRegex` holding the positive
matcher, the exclusion matchers and the anchoring flag. -/
inductive Matcher where
  | re (cr : CompiledRegex)
  | negation (pos : Matcher) (negs : List Matcher) (anchored : Bool)

/-- The `.source` property read by the negation object's `test`: for a
platform regular expression its source; for a plain object it is the
JavaScript `undefined`, which string-concatenation renders as the text
`undefined` (the faithful image of `'^' + re.source + '$'` there). -/
def matcherSource : Matcher → List Char
  | .re cr => cr.source
  | .negation _ _ _ => "undefined".data

/-- The anchored re-compilation `new RegExp('^' + src + '$').test(str)`
performed inside the negation object's `test`.  A construction failure
there would be a thrown error; it is unreachable for the sources this
compiler stores (their unanchored parse succeeded, and an anchored parse
then succeeds too), and is rendered as `false`. -/
def anchoredTestSrc (src : List Char) (s : List Char) : Bool :=
  match parseRegex ('^' :: (src ++ ['$'])) with
  | some r => reTest r s
  | none => false

/-- The global-search loop of the negation object's unanchored `test`:
repeatedly `exec` the positive pattern from `lastIndex`; accept as soon as
an occurrence is vetoed by no exclusion (each exclusion anchored against
exactly the occurrence's text), advance `lastIndex` past the occurrence
(one further on a zero-length occurrence), and reject when the search is
exhausted.  The loop always advances, so the wrapper's budget of
`length + 1` steps never runs out (proved below); a `none` result models
only an exhausted budget. -/
def negLoop (posR : Regex) (negSrcs : List (List Char)) (s : List Char) :
    Nat → Nat → Option Bool
  | 0, _ => none
  | fuel + 1, lastIndex =>
    match execFrom posR s lastIndex with
    | none => some false
    | some (i, e) =>
      if negSrcs.all (fun src => !anchoredTestSrc src ((s.drop i).take (e - i))) then
        some true
      else negLoop posR negSrcs s fuel (if e = i then e + 1 else e)

/-- The `test` method of a compiled matcher.  For the negation object this
follows the source: in anchored mode the positive source re-anchored must
match the whole candidate and every exclusion source re-anchored must
reject it; in unanchored mode the global-search loop above runs on the
re-compiled positive source. -/
def mTest : Matcher → List Char → Bool
  | .re cr, s => reTest cr.ast s
  | .negation pos negs anchored, s =>
    if anchored then
      if !anchoredTestSrc (matcherSource pos) s then false
      else negs.all (fun m => !anchoredTestSrc (matcherSource m) s)
    else
      match parseRegex (matcherSource pos) with
      | none => false
      | some posR => (negLoop posR (negs.map matcherSource) s (s.length + 2) 0).getD false

/-! The mutual recursion of `convertGlobNegationsToRegex` and
`convertGlobToRegex` is budgeted: each real recursion step strictly
decreases the number of `!` characters of the glob (a neutralized negation
loses its `!`, an expanded one turns into `@`), and variants never grow,
so the wrapper's budget of `2 * length + 4` covers every run; the `none`
of an exhausted budget coincides with the null that makes the caller fall
back to direct translation. -/

mutual

/-- Budgeted `convertGlobNegationsToRegex(glob, anchored)`: extract the
negations (none means this path declines), build and compile the positive
variant (whose failure fails this path), compile the surviving exclusion
variants, and return the positive matcher alone when no exclusion
survived, else the negation object. -/
def convertGlobNegationsToRegexF : Nat → List Char → Bool → Option Matcher
  | 0, _, _ => none
  | fuel + 1, glob, anchored =>
    let negations := extractNegatedGlobs glob
    if negations.isEmpty then none
    else
      match convertGlobToRegexF fuel (buildGlobVariant glob negations (-1)) anchored with
      | none => none
      | some positiveRegex =>
        let negativeRegexes := (List.range negations.length).filterMap
          (fun idx => convertGlobToRegexF fuel (buildGlobVariant glob negations (idx : Int)) anchored)
        if negativeRegexes.isEmpty then some positiveRegex
        else some (.negation positiveRegex negativeRegexes anchored)

/-- Budgeted `convertGlobToRegex`: negation path first, else direct
translation, rejecting an empty source and a construction failure. -/
def convertGlobToRegexF : Nat → List Char → Bool → Option Matcher
  | 0, _, _ => none
  | fuel + 1, glob, anchored =>
    match convertGlobNegationsToRegexF fuel glob anchored with
    | some m => some m
    | none =>
      let regexString := convertGlobToRegexStringL glob anchored
      if regexString.isEmpty then none
      else (newRegExp regexString).map .re

end

/-- The source's `convertGlobNegationsToRegex(glob, anchored)`, at the
budget the public entry point hands this path. -/
def convertGlobNegationsToRegexL (glob : List Char) (anchored : Bool) : Option Matcher :=
  convertGlobNegationsToRegexF (2 * glob.length + 3) glob anchored

/-- The source's `convertGlobToRegex(glob, anchored)` at list level. -/
def convertGlobToRegexL (glob : List Char) (anchored : Bool) : Option Matcher :=
  convertGlobToRegexF (2 * glob.length + 4) glob anchored

/-- The public entry point `convertGlobToRegex(glob, anchored = false)`. -/
def convertGlobToRegex (glob : String) (anchored : Bool := false) : Option Matcher :=
  convertGlobToRegexL glob.data anchored

/-- The specification's name `compileGlob` for the public entry point. -/
def compileGlob (glob : String) (anchored : Bool := false) : Option Matcher :=
  convertGlobToRegex glob anchored

/-- Test of an optional matcher against a candidate (the way a caller uses
a non-null compile result). -/
def testOpt (m? : Option Matcher) (s : String) : Bool :=
  match m? with
  | some m => mTest m s.data
  | none => false

example : testOpt (compileGlob "*.js") "app.js" = true := by decide
example : testOpt (compileGlob "*.js") "app.ts" = false := by decide
example : testOpt (compileGlob "file?(.min).js") "file.js" = true := by decide
example : testOpt (compileGlob "file?(.min).js") "file.min.js" = true := by decide
example : testOpt (compileGlob "file?(.min).js") "file.min.min.js" = false := by decide
example : testOpt (compileGlob "!(test).js") "app.js" = true := by decide
example : testOpt (compileGlob "!(test).js") "test.js" = false := by decide
example : testOpt (compileGlob "!(test).js") "testing.js" = true := by decide
example : compileGlob "" false = none := by rfl
example : (compileGlob "" true).isSome = true := by decide
example : testOpt (compileGlob "" true) "" = true := by decide
example : testOpt (compileGlob "" true) "x" = false := by decide
example : testOpt (compileGlob "*.js" true) "path/to/app.js" = false := by decide
example : testOpt (compileGlob "*.js" false) "path/to/app.js" = true := by decide

/-- Parenthesis-depth contribution of one character. -/
def pdelta (c : Char) : Int :=
  (if c = '(' then 1 else 0) - (if c = ')' then 1 else 0)

/-- Net parenthesis balance of a string. -/
def netParen (cs : List Char) : Int :=
  (cs.map pdelta).sum

/-- Chained well-formedness of a descriptor list: each descriptor starts at
or after the running lower bound, spans at least the three characters
`!()`, records exactly the close found by `findMatchingParen` and the
verbatim text strictly between, and the next descriptor starts after it. -/
def ChainInv (glob : List Char) : Nat → List Neg → Prop
  | _, [] => True
  | lb, n :: rest =>
    lb ≤ n.start ∧ n.start + 2 ≤ n.stop ∧ n.stop < glob.length ∧
    findMatchingParen glob (n.start + 1) = some n.stop ∧
    n.inner = (glob.drop (n.start + 2)).take (n.stop - (n.start + 2)) ∧
    ChainInv glob (n.stop + 1) rest

/-! ## Declarative match semantics

`Span s r i j` says the expression `r` matches the characters of `s` from
position `i` (inclusive) to `j` (exclusive).  The star rule mirrors the
ECMAScript repetition semantics the executable matcher implements: an
iteration must advance (an empty iteration terminates the repetition),
which leaves the matched language unchanged.  The budgeted matcher is
proved sound and complete for `Span`, which lets every universally
quantified claim about `test` be settled against this clean relation. -/

inductive Span (s : List Char) : Regex → Nat → Nat → Prop where
  | eps (i : Nat) : Span s .eps i i
  | lit (c : Char) (i : Nat) (h1 : i < s.length) (h2 : s.getD i ' ' = c) :
      Span s (.lit c) i (i + 1)
  | dot (i : Nat) (h1 : i < s.length) (h2 : isLineTerm (s.getD i ' ') = false) :
      Span s .dot i (i + 1)
  | cls (neg : Bool) (items : List CItem) (i : Nat) (h1 : i < s.length)
      (h2 : (items.any (citemMatch (s.getD i ' ')) != neg) = true) :
      Span s (.cls neg items) i (i + 1)
  | bol : Span s .bol 0 0
  | eol : Span s .eol s.length s.length
  | wordB (i : Nat) (h : (prevWord s i != curWord s i) = true) : Span s .wordB i i
  | nwordB (i : Nat) (h : (prevWord s i == curWord s i) = true) : Span s .nwordB i i
  | cat {p q : Regex} {i k j : Nat} (h1 : Span s p i k) (h2 : Span s q k j) :
      Span s (.cat p q) i j
  | altl {p q : Regex} {i j : Nat} (h : Span s p i j) : Span s (.alt p q) i j
  | altr {p q : Regex} {i j : Nat} (h : Span s q i j) : Span s (.alt p q) i j
  | star0 (p : Regex) (i : Nat) : Span s (.star p) i i
  | starS {p : Regex} {i k j : Nat} (h1 : Span s p i k) (hik : i < k)
      (h2 : Span s (.star p) k j) : Span s (.star p) i j

/-! ### Apparatus for relating the anchored and unanchored compiles

The anchored source is literally `^` ++ body ++ `$`.  To compare the two
parses, the reading of the body is tracked through a simulation relation:
the anchored run differs from the unanchored one only by a `bol` atom
sitting at the bottom of the outermost sequence (or already folded into
the head alternative).  Emission-shape invariants on the translator output
(`POk`, `TOk`) rule out the one divergence a trailing `$` could otherwise
repair (a dangling top-level escape). -/

/-- The reading of a list of source characters from a given state. -/
def pRun (st : PState) (cs : List Char) : Option PState :=
  cs.foldlM pStep st

/-- Complete emission of the translator from a state: the scan's output
followed by the end-of-input flush. -/
def tOut (st : TState) (cs : List Char) : List Char :=
  (tRun st cs).2 ++ tFlush (tRun st cs).1

/-- A sequence accumulated in reverse, folded onto an explicit initial
(innermost) expression; `seqFinish seq` is `seqR seq eps`. -/
def seqR (seq : List Regex) (init : Regex) : Regex :=
  seq.foldl (fun acc r => .cat r acc) init

/-- Alternatives accumulated in reverse, folded onto an explicit last
alternative; `altFinish alts seq` is `altR alts (seqFinish seq)`. -/
def altR (alts : List Regex) (init : Regex) : Regex :=
  alts.foldl (fun acc a => .alt a acc) init

/-- One level of the anchor simulation: either no alternative is complete
yet and the primed sequence carries an extra `bol` at its bottom, or the
`bol` has been folded into the first (list-final) completed alternative. -/
def LevRel (alts seq alts' seq' : List Regex) : Prop :=
  (alts = [] ∧ alts' = [] ∧ seq' = seq ++ [Regex.bol]) ∨
  (∃ as a, alts = as ++ [a] ∧ alts' = as ++ [Regex.cat .bol a] ∧ seq' = seq)

/-- The anchor simulation between reading states: equal modes, and the
`bol` discrepancy confined to the outermost level — the current one when
no group is open, else the bottom frame of the group stack. -/
def BotRel (st st' : PState) : Prop :=
  st'.mode = st.mode ∧
  ((st.stack = [] ∧ st'.stack = [] ∧ LevRel st.alts st.seq st'.alts st'.seq) ∨
   (∃ fs f f', st.stack = fs ++ [f] ∧ st'.stack = fs ++ [f'] ∧
      st'.alts = st.alts ∧ st'.seq = st.seq ∧ LevRel f.alts f.seq f'.alts f'.seq))

/-- The anchor simulation lifted to reading outcomes (both fail, or both
succeed related). -/
def OBotRel : Option PState → Option PState → Prop
  | none, none => True
  | some a, some b => BotRel a b
  | _, _ => False

/-- Relation between the finished anchored and unanchored expressions: the
`bol` wraps the whole expression, or its head alternative. -/
def FinRel (r r' : Regex) : Prop :=
  r' = .cat .bol r ∨ ∃ a x, r = .alt a x ∧ r' = .alt (.cat .bol a) x

/-- Shape invariant of a reading state at a translator chunk boundary:
inside a glob character class the reader is inside a bracket expression
with no half-read class escape; outside one it is at an ordinary position
or just after a `(`. -/
def POk (pst : PState) (sq : Bool) : Prop :=
  if sq then ∃ ccs : ClsSt, pst.mode = .inCls ccs ∧ ccs.esc = false
  else pst.mode = .norm ∨ pst.mode = .grpOpen

/-- `POk` lifted to reading outcomes (failure is acceptable). -/
def POkO : Option PState → Bool → Prop
  | none, _ => True
  | some pst, sq => POk pst sq

/-- Reachability invariant of translator states: a pending extglob marker
only exists outside a character class. -/
def TOk (tst : TState) : Prop :=
  ∀ e, tst.pend = .ext e → tst.sq = false

/-- Reachability invariant of reading states: just after a `(` the group
stack is never empty. -/
def GrpInv (pst : PState) : Prop :=
  pst.mode = .grpOpen → pst.stack ≠ []

/-! ## Claims C1 and C2: the translator's treatment of `!` in a class and
of an unmatched `!(` -/

/-- C1, counterexample.  The in-class rule translates `!` to `^` at every
position of the class, not only right after `[`: the glob `[a!b]`, whose
`!` is not right after the `[`, is translated to `[a^b]` and not emitted
as-is. -/
theorem C1_counterexample :
    convertGlobToRegexString "[a!b]" = "[a^b]" ∧
    convertGlobToRegexString "[a!b]" ≠ "[a!b]" := by
  decide

/-- C1, amended.  Inside a character class (with nothing pending): `]`
closes the class and is emitted; `!` is translated to `^` at every
position, not only right after the opening `[`; any other character except
a backslash (which starts a pass-through escape) is emitted as-is with the
state unchanged. -/
theorem C1_inside_class_step (st : TState) (hp : st.pend = .idle) (hsq : st.sq = true) :
    tStep st ']' = ({ st with sq := false }, [']']) ∧
    tStep st '!' = (st, ['^']) ∧
    ∀ c : Char, c ≠ ']' → c ≠ '!' → c ≠ '\\' → tStep st c = (st, [c]) := by
  refine ⟨?_, ?_, ?_⟩
  · simp [tStep, hp, tCore, hsq]
  · simp [tStep, hp, tCore, hsq]
  · intro c h1 h2 h3
    simp [tStep, hp, tCore, hsq, h1, h2, h3]

/-- C1, witness: the amended step contract applied in the concrete in-class
state right after scanning `[a`, at the ordinary character `b`. -/
theorem C1_witness :
    tStep ⟨true, false, [], .idle⟩ 'b' = (⟨true, false, [], .idle⟩, ['b']) :=
  (C1_inside_class_step ⟨true, false, [], .idle⟩ rfl rfl).2.2 'b'
    (by decide) (by decide) (by decide)

/-- C2, counterexample.  On the glob `!(test` the extractor emits no
descriptor, and the translator then emits an UNescaped literal `!`
followed by an ESCAPED parenthesis (rule 11's list does contain `(`), so
the output is `!\(test` — not an escaped `!` with a bare `(`. -/
theorem C2_counterexample :
    extractNegatedGlobs "!(test".data = [] ∧
    convertGlobToRegexString "!(test" = "!\\(test" ∧
    convertGlobToRegexString "!(test" ≠ "\\!(test" := by
  decide

/-- C2, amended.  Outside a character class with nothing pending, `!` is
emitted as-is (it is not regex-special and is not in rule 11's list), and
a `(` that opens no extglob is escaped by rule 11's list to `\(`;
consequently a glob starting with an unmatched `!(` translates to `!\(`
followed by the translation of the rest. -/
theorem C2_unmatched_negation_translation :
    (∀ st : TState, st.pend = .idle → st.sq = false →
      tStep st '!' = (st, ['!']) ∧ tStep st '(' = (st, ['\\', '('])) ∧
    ∀ cs : List Char,
      convertGlobToRegexStringL ('!' :: '(' :: cs) false =
        '!' :: '\\' :: '(' :: convertGlobToRegexStringL cs false := by
  constructor
  · intro st hp hsq
    obtain ⟨sq, curly, stack, pend⟩ := st
    simp only at hp hsq
    subst hp hsq
    constructor
    · simp [tStep, tCore, isExtglobChar, plainStep, inEscapeSet]
    · simp [tStep, tCore, isExtglobChar, plainStep, inEscapeSet]
  · intro cs
    simp [convertGlobToRegexStringL, tRun, tStep, TState.init, tCore,
      isExtglobChar, plainStep, inEscapeSet]

/-- C2, witness: the amended contract applied in the initial state and to
the concrete remainder `test`. -/
theorem C2_witness :
    tStep ⟨false, false, [], .idle⟩ '!' = (⟨false, false, [], .idle⟩, ['!']) ∧
    convertGlobToRegexStringL ('!' :: '(' :: "test".data) false =
      '!' :: '\\' :: '(' :: convertGlobToRegexStringL "test".data false :=
  ⟨(C2_unmatched_negation_translation.1 ⟨false, false, [], .idle⟩ rfl rfl).1,
    C2_unmatched_negation_translation.2 "test".data⟩

/-! ## Claim C8: invariants of the negation extractor -/


theorem netParen_nil : netParen [] = 0 := rfl

theorem netParen_cons (c : Char) (l : List Char) :
    netParen (c :: l) = pdelta c + netParen l := by
  simp [netParen]

/-- What a successful depth scan guarantees: the reported index is in
range, carries a `)`, and the balance of the scanned characters up to and
including it cancels the incoming depth. -/
theorem pdelta_cases (c : Char) : pdelta c = -1 ∨ pdelta c = 0 ∨ pdelta c = 1 := by
  rw [pdelta]
  by_cases h1 : c = '('
  · right; right; simp [h1]
  · by_cases h2 : c = ')'
    · left; simp [h1, h2]
    · right; left; simp [h1, h2]

theorem pdelta_close_of_neg (c : Char) (h : pdelta c ≤ -1) : c = ')' := by
  by_contra hc
  rw [pdelta, if_neg hc] at h
  by_cases h1 : c = '('
  · rw [if_pos h1] at h; omega
  · rw [if_neg h1] at h; omega

/-- What a successful depth scan guarantees: the reported index is in
range, carries a `)`, and the balance of the scanned characters up to and
including it cancels the incoming depth. -/
theorem fmpScan_spec :
    ∀ (cs : List Char) (i : Nat) (depth : Int) (e : Nat),
      1 ≤ depth → fmpScan cs i depth = some e →
      i ≤ e ∧ e < i + cs.length ∧ cs.getD (e - i) ' ' = ')' ∧
        depth + netParen (cs.take (e - i + 1)) = 0
  | [], i, depth, e => by
    intro _ h
    simp [fmpScan] at h
  | c :: cs, i, depth, e => by
    intro hd h
    rw [fmpScan] at h
    have hstep : depth + (if c = '(' then (1 : Int) else 0) -
        (if c = ')' then (1 : Int) else 0) = depth + pdelta c := by
      rw [pdelta]
      exact add_sub_assoc ..
    rw [hstep] at h
    by_cases hz : depth + pdelta c = 0
    · rw [if_pos hz] at h
      have he : e = i := by simpa using h.symm
      subst he
      have hcp : c = ')' := by
        refine pdelta_close_of_neg c ?_
        omega
      refine ⟨le_refl _, by simp only [List.length_cons]; omega, by simp [hcp], ?_⟩
      have h1 : e - e + 1 = 1 := by omega
      rw [h1, List.take_succ_cons, List.take_zero, netParen_cons, netParen_nil]
      omega
    · rw [if_neg hz] at h
      have hd' : 1 ≤ depth + pdelta c := by
        have := pdelta_cases c
        omega
      obtain ⟨h1, h2, h3, h4⟩ := fmpScan_spec cs (i + 1) _ e hd' h
      refine ⟨by omega, by simp only [List.length_cons]; omega, ?_, ?_⟩
      · have hh : e - i = (e - (i + 1)) + 1 := by omega
        rw [hh]
        simpa using h3
      · have hh : e - i + 1 = (e - (i + 1) + 1) + 1 := by omega
        rw [hh, List.take_succ_cons, netParen_cons]
        omega

/-- What the source's `findMatchingParen` guarantees on success: the close
is strictly beyond the open and in range, it is a `)`, and the depth
balance seeded at 1 just after the open reaches exactly 0 at the close. -/
theorem findMatchingParen_spec (str : List Char) (openIndex e : Nat)
    (h : findMatchingParen str openIndex = some e) :
    openIndex < e ∧ e < str.length ∧ str.getD e ' ' = ')' ∧
      1 + netParen ((str.drop (openIndex + 1)).take (e - openIndex)) = 0 := by
  obtain ⟨h1, h2, h3, h4⟩ :=
    fmpScan_spec (str.drop (openIndex + 1)) (openIndex + 1) 1 e (le_refl _) h
  rw [List.length_drop] at h2
  have hlt : openIndex + 1 ≤ str.length := by omega
  have he : e < str.length := by omega
  refine ⟨by omega, he, ?_, ?_⟩
  · have := List.getElem?_drop str (openIndex + 1) (e - (openIndex + 1))
    have harith : openIndex + 1 + (e - (openIndex + 1)) = e := by omega
    rw [harith] at this
    simpa [List.getD, this] using h3
  · have : e - (openIndex + 1) + 1 = e - openIndex := by omega
    rw [this] at h4
    exact h4


theorem chainInv_mono (glob : List Char) (i j : Nat) (l : List Neg)
    (h : ChainInv glob j l) (hij : i ≤ j) : ChainInv glob i l := by
  cases l with
  | nil => trivial
  | cons n rest =>
    obtain ⟨h1, h2, h3, h4, h5, h6⟩ := h
    exact ⟨by omega, h2, h3, h4, h5, h6⟩

/-- The scan loop of the extractor always produces a chained list from its
current position. -/
theorem extractAux_chain (glob : List Char) :
    ∀ fuel i, ChainInv glob i (extractAux glob fuel i) := by
  intro fuel
  induction fuel with
  | zero => intro i; rw [extractAux]; trivial
  | succ fuel ih =>
    intro i
    rw [extractAux]
    by_cases hi : i < glob.length
    · rw [if_pos hi]
      by_cases hb : (glob.getD i ' ' = '!' && glob.getD (i + 1) ' ' = '(') = true
      · rw [if_pos hb]
        cases hf : findMatchingParen glob (i + 1) with
        | none => exact chainInv_mono glob i (i + 1) _ (ih (i + 1)) (by omega)
        | some close =>
          obtain ⟨h1, h2, h3, h4⟩ := findMatchingParen_spec glob (i + 1) close hf
          exact ⟨le_refl _, by show i + 2 ≤ close; omega, h2, hf, rfl, ih (close + 1)⟩
      · rw [if_neg hb]
        exact chainInv_mono glob i (i + 1) _ (ih (i + 1)) (by omega)
    · rw [if_neg hi]
      trivial

theorem chainInv_forall (glob : List Char) :
    ∀ (l : List Neg) (lb : Nat), ChainInv glob lb l →
      ∀ n ∈ l, lb ≤ n.start ∧ n.start + 2 ≤ n.stop ∧ n.stop < glob.length ∧
        findMatchingParen glob (n.start + 1) = some n.stop ∧
        n.inner = (glob.drop (n.start + 2)).take (n.stop - (n.start + 2)) := by
  intro l
  induction l with
  | nil => intro lb _ n hn; cases hn
  | cons m rest ih =>
    intro lb h n hn
    obtain ⟨h1, h2, h3, h4, h5, h6⟩ := h
    rcases List.mem_cons.mp hn with he | ht
    · subst he; exact ⟨h1, h2, h3, h4, h5⟩
    · obtain ⟨g1, g2, g3, g4, g5⟩ := ih (m.stop + 1) h6 n ht
      exact ⟨by omega, g2, g3, g4, g5⟩

theorem chainInv_pairwise (glob : List Char) :
    ∀ (l : List Neg) (lb : Nat), ChainInv glob lb l →
      l.Pairwise (fun a b => a.stop < b.start) := by
  intro l
  induction l with
  | nil => intro lb _; exact List.Pairwise.nil
  | cons m rest ih =>
    intro lb h
    obtain ⟨h1, h2, h3, h4, h5, h6⟩ := h
    refine List.Pairwise.cons ?_ (ih (m.stop + 1) h6)
    intro b hb
    have := (chainInv_forall glob rest (m.stop + 1) h6 b hb).1
    omega

/-- C8.  For every input glob the extracted descriptors have pairwise
non-overlapping spans in ascending order; each descriptor's `end` points
at a `)` of the glob whose depth balance seeded at 1 relative to the
position right after `start + 1` is zero, and is exactly the close located
by `findMatchingParen`; candidates with no matching close contribute no
descriptor (every descriptor carries a found close), and the extractor is
a total function (no error). -/
theorem C8_extractor_invariants (glob : List Char) :
    (extractNegatedGlobs glob).Pairwise (fun a b => a.stop < b.start) ∧
    ∀ n ∈ extractNegatedGlobs glob,
      n.start + 2 ≤ n.stop ∧ n.stop < glob.length ∧
      glob.getD n.stop ' ' = ')' ∧
      1 + netParen ((glob.drop (n.start + 2)).take (n.stop - (n.start + 1))) = 0 ∧
      findMatchingParen glob (n.start + 1) = some n.stop := by
  have hch := extractAux_chain glob (glob.length + 1) 0
  constructor
  · exact chainInv_pairwise glob _ 0 hch
  · intro n hn
    obtain ⟨g1, g2, g3, g4, g5⟩ := chainInv_forall glob _ 0 hch n hn
    obtain ⟨f1, f2, f3, f4⟩ := findMatchingParen_spec glob (n.start + 1) n.stop g4
    exact ⟨g2, g3, f3, f4, g4⟩

/-- C8, witness: the invariants instantiated on the glob `!(a)b!(c)` at its
first extracted descriptor. -/
theorem C8_witness :
    (⟨0, 3, ['a']⟩ : Neg).start + 2 ≤ (⟨0, 3, ['a']⟩ : Neg).stop ∧
    (⟨0, 3, ['a']⟩ : Neg).stop < "!(a)b!(c)".data.length ∧
    "!(a)b!(c)".data.getD (⟨0, 3, ['a']⟩ : Neg).stop ' ' = ')' ∧
    1 + netParen (("!(a)b!(c)".data.drop ((⟨0, 3, ['a']⟩ : Neg).start + 2)).take
      ((⟨0, 3, ['a']⟩ : Neg).stop - ((⟨0, 3, ['a']⟩ : Neg).start + 1))) = 0 ∧
    findMatchingParen "!(a)b!(c)".data ((⟨0, 3, ['a']⟩ : Neg).start + 1) =
      some (⟨0, 3, ['a']⟩ : Neg).stop :=
  (C8_extractor_invariants "!(a)b!(c)".data).2 ⟨0, 3, ['a']⟩ (by decide)

theorem Span.le {s : List Char} {r : Regex} {i j : Nat} (h : Span s r i j) : i ≤ j := by
  induction h with
  | eps => exact le_refl _
  | lit => omega
  | dot => omega
  | cls => omega
  | bol => exact le_refl _
  | eol => exact le_refl _
  | wordB => exact le_refl _
  | nwordB => exact le_refl _
  | cat h1 h2 ih1 ih2 => omega
  | altl h ih => exact ih
  | altr h ih => exact ih
  | star0 => exact le_refl _
  | starS h1 hik h2 ih1 ih2 => omega

theorem Span.bound {s : List Char} {r : Regex} {i j : Nat}
    (h : Span s r i j) (hi : i ≤ s.length) : j ≤ s.length := by
  induction h with
  | eps => exact hi
  | lit c i h1 h2 => omega
  | dot i h1 h2 => omega
  | cls neg items i h1 h2 => omega
  | bol => exact hi
  | eol => exact le_refl _
  | wordB => exact hi
  | nwordB => exact hi
  | cat h1 h2 ih1 ih2 => exact ih2 (ih1 hi)
  | altl h ih => exact ih hi
  | altr h ih => exact ih hi
  | star0 => exact hi
  | starS h1 hik h2 ih1 ih2 => exact ih2 (ih1 hi)

/-- Soundness of the budgeted matcher: every reported end position is a
declarative match. -/
theorem mrunF_sound (s : List Char) :
    ∀ (fuel : Nat) (r : Regex) (i j : Nat), j ∈ mrunF s fuel r i → Span s r i j := by
  intro fuel
  induction fuel with
  | zero => intro r i j h; simp [mrunF] at h
  | succ fuel ih =>
    intro r i j h
    cases r with
    | eps =>
      rw [mrunF] at h
      have : j = i := by simpa using h
      rw [this]; exact Span.eps i
    | lit c =>
      rw [mrunF] at h
      by_cases hc : (decide (i < s.length) && decide (s.getD i ' ' = c)) = true
      · rw [if_pos hc] at h
        have : j = i + 1 := by simpa using h
        subst this
        simp only [Bool.and_eq_true, decide_eq_true_eq] at hc
        exact Span.lit c i hc.1 hc.2
      · rw [if_neg hc] at h; cases h
    | dot =>
      rw [mrunF] at h
      by_cases hc : (decide (i < s.length) && !isLineTerm (s.getD i ' ')) = true
      · rw [if_pos hc] at h
        have : j = i + 1 := by simpa using h
        subst this
        simp only [Bool.and_eq_true, decide_eq_true_eq, Bool.not_eq_true'] at hc
        exact Span.dot i hc.1 hc.2
      · rw [if_neg hc] at h; cases h
    | cls neg items =>
      rw [mrunF] at h
      by_cases hc : (decide (i < s.length) &&
          (items.any (citemMatch (s.getD i ' ')) != neg)) = true
      · rw [if_pos hc] at h
        have : j = i + 1 := by simpa using h
        subst this
        simp only [Bool.and_eq_true, decide_eq_true_eq] at hc
        exact Span.cls neg items i hc.1 hc.2
      · rw [if_neg hc] at h; cases h
    | bol =>
      rw [mrunF] at h
      by_cases hc : i = 0
      · rw [if_pos hc] at h
        have : j = i := by simpa using h
        subst this; subst hc; exact Span.bol
      · rw [if_neg hc] at h; cases h
    | eol =>
      rw [mrunF] at h
      by_cases hc : i = s.length
      · rw [if_pos hc] at h
        have : j = i := by simpa using h
        subst this; subst hc; exact Span.eol
      · rw [if_neg hc] at h; cases h
    | wordB =>
      rw [mrunF] at h
      by_cases hc : (prevWord s i != curWord s i) = true
      · rw [if_pos hc] at h
        have : j = i := by simpa using h
        rw [this]; exact Span.wordB i hc
      · rw [if_neg hc] at h; cases h
    | nwordB =>
      rw [mrunF] at h
      by_cases hc : (prevWord s i == curWord s i) = true
      · rw [if_pos hc] at h
        have : j = i := by simpa using h
        rw [this]; exact Span.nwordB i hc
      · rw [if_neg hc] at h; cases h
    | cat p q =>
      rw [mrunF] at h
      obtain ⟨k, hk, hj⟩ := List.mem_flatMap.mp h
      exact Span.cat (ih p i k hk) (ih q k j hj)
    | alt p q =>
      rw [mrunF] at h
      rcases List.mem_append.mp h with h1 | h2
      · exact Span.altl (ih p i j h1)
      · exact Span.altr (ih q i j h2)
    | star p =>
      rw [mrunF] at h
      rcases List.mem_append.mp h with h1 | h2
      · obtain ⟨k, hk, hj⟩ := List.mem_flatMap.mp h1
        obtain ⟨hkm, hik⟩ := List.mem_filter.mp hk
        exact Span.starS (ih p i k hkm) (by simpa using hik) (ih (.star p) k j hj)
      · have : j = i := by simpa using h2
        rw [this]; exact Span.star0 p i

theorem rsize_pos (r : Regex) : 1 ≤ rsize r := by
  cases r <;> simp [rsize]

/-- Completeness of the budgeted matcher: every declarative match is found
within the stated budget. -/
theorem mrunF_complete (s : List Char) {r : Regex} {i j : Nat} (hsp : Span s r i j) :
    ∀ fuel : Nat, i ≤ s.length → (s.length + 1 - i) * (rsize r + 1) ≤ fuel →
      j ∈ mrunF s fuel r i := by
  induction hsp with
  | eps i =>
    intro fuel hi hf
    have hpos : 0 < (s.length + 1 - i) * (rsize Regex.eps + 1) :=
      Nat.mul_pos (by omega) (by omega)
    cases fuel with
    | zero => omega
    | succ f => rw [mrunF]; simp
  | lit c i h1 h2 =>
    intro fuel hi hf
    have hpos : 0 < (s.length + 1 - i) * (rsize (Regex.lit c) + 1) :=
      Nat.mul_pos (by omega) (by omega)
    cases fuel with
    | zero => omega
    | succ f =>
      have h2' := h2
      rw [List.getD_eq_getElem s ' ' h1] at h2'
      rw [mrunF, if_pos (by simp [h1, h2'])]
      simp
  | dot i h1 h2 =>
    intro fuel hi hf
    have hpos : 0 < (s.length + 1 - i) * (rsize Regex.dot + 1) :=
      Nat.mul_pos (by omega) (by omega)
    cases fuel with
    | zero => omega
    | succ f =>
      have h2' := h2
      rw [List.getD_eq_getElem s ' ' h1] at h2'
      rw [mrunF, if_pos (by simp [h1, h2'])]
      simp
  | cls neg items i h1 h2 =>
    intro fuel hi hf
    have hpos : 0 < (s.length + 1 - i) * (rsize (Regex.cls neg items) + 1) :=
      Nat.mul_pos (by omega) (by omega)
    cases fuel with
    | zero => omega
    | succ f =>
      have h2' := h2
      rw [List.getD_eq_getElem s ' ' h1] at h2'
      rw [mrunF, if_pos (by simp [h1, h2'])]
      simp
  | bol =>
    intro fuel hi hf
    have hpos : 0 < (s.length + 1 - 0) * (rsize Regex.bol + 1) :=
      Nat.mul_pos (by omega) (by omega)
    cases fuel with
    | zero => omega
    | succ f => rw [mrunF]; simp
  | eol =>
    intro fuel hi hf
    have hpos : 0 < (s.length + 1 - s.length) * (rsize Regex.eol + 1) :=
      Nat.mul_pos (by omega) (by omega)
    cases fuel with
    | zero => omega
    | succ f => rw [mrunF]; simp
  | wordB i h =>
    intro fuel hi hf
    have hpos : 0 < (s.length + 1 - i) * (rsize Regex.wordB + 1) :=
      Nat.mul_pos (by omega) (by omega)
    cases fuel with
    | zero => omega
    | succ f => rw [mrunF]; simp [h]
  | nwordB i h =>
    intro fuel hi hf
    have hpos : 0 < (s.length + 1 - i) * (rsize Regex.nwordB + 1) :=
      Nat.mul_pos (by omega) (by omega)
    cases fuel with
    | zero => omega
    | succ f => rw [mrunF]; simp [h]
  | @cat p q i k j h1 h2 ih1 ih2 =>
    intro fuel hi hf
    have hk : k ≤ s.length := h1.bound hi
    have hik : i ≤ k := h1.le
    have hsplit : (s.length + 1 - i) * (rsize (Regex.cat p q) + 1) =
        (s.length + 1 - i) * (rsize p + 1) + (s.length + 1 - i) * (rsize q + 1) := by
      rw [show rsize (Regex.cat p q) = rsize p + rsize q + 1 from rfl]
      ring
    have h1p : 1 ≤ (s.length + 1 - i) * (rsize p + 1) :=
      Nat.one_le_iff_ne_zero.mpr (Nat.mul_ne_zero (by omega) (by omega))
    have h1q : 1 ≤ (s.length + 1 - i) * (rsize q + 1) :=
      Nat.one_le_iff_ne_zero.mpr (Nat.mul_ne_zero (by omega) (by omega))
    have hqk : (s.length + 1 - k) * (rsize q + 1) ≤ (s.length + 1 - i) * (rsize q + 1) :=
      Nat.mul_le_mul_right _ (by omega)
    cases fuel with
    | zero => omega
    | succ f =>
      rw [mrunF]
      refine List.mem_flatMap.mpr ⟨k, ?_, ?_⟩
      · exact ih1 f hi (by omega)
      · exact ih2 f hk (by omega)
  | @altl p q i j h ih =>
    intro fuel hi hf
    have hsplit : (s.length + 1 - i) * (rsize (Regex.alt p q) + 1) =
        (s.length + 1 - i) * (rsize p + 1) + (s.length + 1 - i) * (rsize q + 1) := by
      rw [show rsize (Regex.alt p q) = rsize p + rsize q + 1 from rfl]
      ring
    have h1q : 1 ≤ (s.length + 1 - i) * (rsize q + 1) :=
      Nat.one_le_iff_ne_zero.mpr (Nat.mul_ne_zero (by omega) (by omega))
    have h1p : 1 ≤ (s.length + 1 - i) * (rsize p + 1) :=
      Nat.one_le_iff_ne_zero.mpr (Nat.mul_ne_zero (by omega) (by omega))
    cases fuel with
    | zero => omega
    | succ f =>
      rw [mrunF]
      exact List.mem_append.mpr (Or.inl (ih f hi (by omega)))
  | @altr p q i j h ih =>
    intro fuel hi hf
    have hsplit : (s.length + 1 - i) * (rsize (Regex.alt p q) + 1) =
        (s.length + 1 - i) * (rsize p + 1) + (s.length + 1 - i) * (rsize q + 1) := by
      rw [show rsize (Regex.alt p q) = rsize p + rsize q + 1 from rfl]
      ring
    have h1q : 1 ≤ (s.length + 1 - i) * (rsize q + 1) :=
      Nat.one_le_iff_ne_zero.mpr (Nat.mul_ne_zero (by omega) (by omega))
    have h1p : 1 ≤ (s.length + 1 - i) * (rsize p + 1) :=
      Nat.one_le_iff_ne_zero.mpr (Nat.mul_ne_zero (by omega) (by omega))
    cases fuel with
    | zero => omega
    | succ f =>
      rw [mrunF]
      exact List.mem_append.mpr (Or.inr (ih f hi (by omega)))
  | star0 p i =>
    intro fuel hi hf
    have hpos : 0 < (s.length + 1 - i) * (rsize (Regex.star p) + 1) :=
      Nat.mul_pos (by omega) (by omega)
    cases fuel with
    | zero => omega
    | succ f =>
      rw [mrunF]
      exact List.mem_append.mpr (Or.inr (by simp))
  | @starS p i k j h1 hik h2 ih1 ih2 =>
    intro fuel hi hf
    have hk : k ≤ s.length := h1.bound hi
    have hsplit : (s.length + 1 - i) * (rsize (Regex.star p) + 1) =
        (s.length + 1 - i) * (rsize p + 1) + (s.length + 1 - i) := by
      rw [show rsize (Regex.star p) = rsize p + 1 from rfl]
      ring
    have h1p : 1 ≤ (s.length + 1 - i) * (rsize p + 1) :=
      Nat.one_le_iff_ne_zero.mpr (Nat.mul_ne_zero (by omega) (by omega))
    have hstk : (s.length + 1 - k) * (rsize (Regex.star p) + 1) + (rsize (Regex.star p) + 1) ≤
        (s.length + 1 - i) * (rsize (Regex.star p) + 1) := by
      have : s.length + 1 - k + 1 ≤ s.length + 1 - i := by omega
      calc (s.length + 1 - k) * (rsize (Regex.star p) + 1) + (rsize (Regex.star p) + 1)
          = (s.length + 1 - k + 1) * (rsize (Regex.star p) + 1) := by ring
        _ ≤ (s.length + 1 - i) * (rsize (Regex.star p) + 1) :=
            Nat.mul_le_mul_right _ this
    have hps : (s.length + 1 - i) * (rsize p + 1) + (s.length + 1 - i) ≤
        (s.length + 1 - i) * (rsize (Regex.star p) + 1) := by
      rw [hsplit]
    cases fuel with
    | zero => omega
    | succ f =>
      rw [mrunF]
      refine List.mem_append.mpr (Or.inl ?_)
      refine List.mem_flatMap.mpr ⟨k, ?_, ?_⟩
      · refine List.mem_filter.mpr ⟨?_, by simpa using hik⟩
        exact ih1 f hi (by omega)
      · exact ih2 f hk (by omega)

theorem regexFuel_ge (s : List Char) (r : Regex) (i : Nat) :
    (s.length + 1 - i) * (rsize r + 1) ≤ regexFuel s r :=
  Nat.mul_le_mul_right _ (by omega)

/-- The engine's match list at a position is nonempty exactly when a
declarative match starts there. -/
theorem mpos_ne_iff (r : Regex) (s : List Char) (i : Nat) (hi : i ≤ s.length) :
    mpos r s i ≠ [] ↔ ∃ j, Span s r i j := by
  constructor
  · intro h
    obtain ⟨j, hj⟩ := List.exists_mem_of_ne_nil _ h
    exact ⟨j, mrunF_sound s _ r i j hj⟩
  · rintro ⟨j, hj⟩
    exact List.ne_nil_of_mem (mrunF_complete s hj _ hi (regexFuel_ge s r i))

theorem findSome?_isSome_iff {α β : Type} (f : α → Option β) :
    ∀ l : List α, (l.findSome? f).isSome = true ↔ ∃ a ∈ l, (f a).isSome = true := by
  intro l
  induction l with
  | nil => simp [List.findSome?_nil]
  | cons a l ih =>
    rw [List.findSome?_cons]
    cases hfa : f a with
    | some b => simp [hfa]
    | none => simp [hfa, ih]

theorem findSome?_eq_some_ex {α β : Type} (f : α → Option β) (b : β) :
    ∀ l : List α, l.findSome? f = some b → ∃ a ∈ l, f a = some b := by
  intro l
  induction l with
  | nil => intro h; simp [List.findSome?_nil] at h
  | cons a l ih =>
    intro h
    rw [List.findSome?_cons] at h
    cases hfa : f a with
    | some c =>
      rw [hfa] at h
      simp only at h
      exact ⟨a, List.mem_cons_self a l, by rw [hfa, h]⟩
    | none =>
      rw [hfa] at h
      simp only at h
      obtain ⟨x, hx, hfx⟩ := ih h
      exact ⟨x, List.mem_cons_of_mem a hx, hfx⟩

/-- What a successful `exec` search guarantees: the match starts at or
after the search position and within the subject, and its end is the head
of the engine's match list there. -/
theorem execFrom_some_spec (r : Regex) (s : List Char) (start i e : Nat)
    (h : execFrom r s start = some (i, e)) :
    start ≤ i ∧ i ≤ s.length ∧ i ≤ e ∧ e ≤ s.length ∧ e ∈ mpos r s i := by
  obtain ⟨a, ha, hfa⟩ := findSome?_eq_some_ex _ _ _ h
  obtain ⟨ha1, ha2⟩ := List.mem_range'_1.mp ha
  have hal : a ≤ s.length := by omega
  cases hm : mpos r s a with
  | nil => rw [hm] at hfa; cases hfa
  | cons j t =>
    rw [hm] at hfa
    simp only [Option.some.injEq, Prod.mk.injEq] at hfa
    obtain ⟨h5, h6⟩ := hfa
    subst h5; subst h6
    have hje : j ∈ mpos r s a := by rw [hm]; exact List.mem_cons_self j t
    have hsp := mrunF_sound s _ r a j hje
    exact ⟨ha1, hal, hsp.le, hsp.bound hal, hje⟩

/-- The `exec` search succeeds exactly when a declarative match starts at
or after the search position. -/
theorem execFrom_isSome_iff (r : Regex) (s : List Char) (start : Nat) :
    (execFrom r s start).isSome = true ↔
      ∃ i j, start ≤ i ∧ i ≤ s.length ∧ Span s r i j := by
  rw [execFrom, findSome?_isSome_iff]
  constructor
  · rintro ⟨a, ha, hfa⟩
    obtain ⟨ha1, ha2⟩ := List.mem_range'_1.mp ha
    have hal : a ≤ s.length := by omega
    cases hm : mpos r s a with
    | nil => rw [hm] at hfa; simp at hfa
    | cons j t =>
      have hj : j ∈ mpos r s a := by rw [hm]; exact List.mem_cons_self j t
      exact ⟨a, j, ha1, hal, mrunF_sound s _ r a j hj⟩
  · rintro ⟨i, j, h1, h2, hsp⟩
    refine ⟨i, List.mem_range'_1.mpr ⟨h1, by omega⟩, ?_⟩
    have : mpos r s i ≠ [] := (mpos_ne_iff r s i h2).mpr ⟨j, hsp⟩
    cases hm : mpos r s i with
    | nil => exact absurd hm this
    | cons k t => simp

/-- The `test` of a compiled expression succeeds exactly when the
expression has a declarative occurrence in the candidate. -/
theorem reTest_iff (r : Regex) (s : List Char) :
    reTest r s = true ↔ ∃ i j, i ≤ s.length ∧ Span s r i j := by
  rw [reTest, execFrom_isSome_iff]
  constructor
  · rintro ⟨i, j, _, h2, hsp⟩; exact ⟨i, j, h2, hsp⟩
  · rintro ⟨i, j, h2, hsp⟩; exact ⟨i, j, Nat.zero_le i, h2, hsp⟩

/-! ## Claim C9: termination of the negation matcher's search loop -/

/-- C9.  The global-search loop of the unanchored negation `test` always
terminates: each iteration strictly advances the search position (past
zero-length positive occurrences by the explicit `lastIndex` bump), so any
budget exceeding `length + 1 - lastIndex` — in particular the `length + 2`
the matcher hands it — yields a boolean. -/
theorem C9_negation_loop_terminates (posR : Regex) (negSrcs : List (List Char))
    (s : List Char) :
    ∀ (fuel lastIndex : Nat), s.length + 1 - lastIndex < fuel →
      ∃ b : Bool, negLoop posR negSrcs s fuel lastIndex = some b := by
  intro fuel
  induction fuel with
  | zero => intro li h; omega
  | succ fuel ih =>
    intro li h
    rw [negLoop]
    cases hx : execFrom posR s li with
    | none => exact ⟨false, rfl⟩
    | some p =>
      obtain ⟨i, e⟩ := p
      dsimp only
      obtain ⟨h1, h2, h3, h4, _⟩ := execFrom_some_spec posR s li i e hx
      by_cases hveto :
          (negSrcs.all fun src => !anchoredTestSrc src ((s.drop i).take (e - i))) = true
      · rw [if_pos hveto]
        exact ⟨true, rfl⟩
      · rw [if_neg hveto]
        exact ih (if e = i then e + 1 else e) (by split <;> omega)

/-- C9, witness: the loop applied to the concrete positive pattern `a`,
no exclusions, candidate `a`, at the matcher's budget. -/
theorem C9_witness :
    ∃ b : Bool, negLoop (.lit 'a') [] "a".data 3 0 = some b :=
  C9_negation_loop_terminates (.lit 'a') [] "a".data 3 0 (by decide)

/-! ### Inversion of the declarative semantics -/

theorem span_eps_iff (s : List Char) (i j : Nat) : Span s .eps i j ↔ j = i := by
  constructor
  · intro h; cases h; rfl
  · rintro rfl; exact Span.eps _

theorem span_bol_iff (s : List Char) (i j : Nat) : Span s .bol i j ↔ i = 0 ∧ j = 0 := by
  constructor
  · intro h; cases h; exact ⟨rfl, rfl⟩
  · rintro ⟨rfl, rfl⟩; exact Span.bol

theorem span_eol_iff (s : List Char) (i j : Nat) :
    Span s .eol i j ↔ i = s.length ∧ j = s.length := by
  constructor
  · intro h; cases h; exact ⟨rfl, rfl⟩
  · rintro ⟨rfl, rfl⟩; exact Span.eol

theorem span_lit_iff (s : List Char) (c : Char) (i j : Nat) :
    Span s (.lit c) i j ↔ i < s.length ∧ s.getD i ' ' = c ∧ j = i + 1 := by
  constructor
  · intro h
    cases h
    rename_i h1 h2
    exact ⟨h1, h2, rfl⟩
  · rintro ⟨h1, h2, rfl⟩; exact Span.lit c i h1 h2

theorem span_cat_iff (s : List Char) (p q : Regex) (i j : Nat) :
    Span s (.cat p q) i j ↔ ∃ k, Span s p i k ∧ Span s q k j := by
  constructor
  · intro h; cases h with | cat h1 h2 => exact ⟨_, h1, h2⟩
  · rintro ⟨k, h1, h2⟩; exact Span.cat h1 h2

theorem span_alt_iff (s : List Char) (p q : Regex) (i j : Nat) :
    Span s (.alt p q) i j ↔ Span s p i j ∨ Span s q i j := by
  constructor
  · intro h
    cases h with
    | altl h => exact Or.inl h
    | altr h => exact Or.inr h
  · rintro (h | h)
    · exact Span.altl h
    · exact Span.altr h

/-! ## Claims C3 and C5: concrete matcher behaviors -/

/-- C3.  The negation matcher compiled from `!(test).js` (unanchored)
accepts `app.js`, rejects `test.js`, and accepts `testing.js`: the
negation vetoes only a positive occurrence that an exclusion pattern,
anchored against exactly that occurrence, matches in full — not every
candidate containing the forbidden alternative as a prefix. -/
theorem C3_negation_exact_literal :
    (compileGlob "!(test).js" false).isSome = true ∧
    testOpt (compileGlob "!(test).js" false) "app.js" = true ∧
    testOpt (compileGlob "!(test).js" false) "test.js" = false ∧
    testOpt (compileGlob "!(test).js" false) "testing.js" = true := by
  refine ⟨by decide, by decide, by decide, by decide⟩

/-- C5.  The matcher compiled from `file?(.min).js` (unanchored) accepts
`file.js` and `file.min.js` but rejects `file.min.min.js`: the `?(...)`
group, translated to `(?:...)?`, matches its inner content at most once
and is never repeated. -/
theorem C5_optional_group_once :
    testOpt (compileGlob "file?(.min).js") "file.js" = true ∧
    testOpt (compileGlob "file?(.min).js") "file.min.js" = true ∧
    testOpt (compileGlob "file?(.min).js") "file.min.min.js" = false := by
  refine ⟨by decide, by decide, by decide⟩

/-! ## Claim C7: the compile boundary turns failures into null -/

/-- The modelled constructor fails exactly when the source does not parse. -/
theorem newRegExp_none_iff (src : List Char) :
    newRegExp src = none ↔ parseRegex src = none := by
  rw [newRegExp]
  split
  · next r heq => simp [heq]
  · next heq => simp [heq]

/-- C7.  For every input glob and anchoring flag the compiler returns a
matcher or null — the embedding gives it no exception channel, the
construction failure of the platform constructor (`none` of `newRegExp`)
being caught at exactly this boundary — and it returns null precisely when
the negation path declined (or failed) and the direct translation produced
an empty source or a source the constructor rejects (such as the unbalanced
class of `[ab`). -/
theorem C7_compile_failure_is_null (glob : String) (anchored : Bool) :
    ((∃ m, compileGlob glob anchored = some m) ∨ compileGlob glob anchored = none) ∧
    (compileGlob glob anchored = none ↔
      (convertGlobNegationsToRegexL glob.data anchored = none ∧
        (convertGlobToRegexString glob anchored = "" ∨
          parseRegex (convertGlobToRegexString glob anchored).data = none))) := by
  constructor
  · cases h : compileGlob glob anchored with
    | some m => exact Or.inl ⟨m, rfl⟩
    | none => exact Or.inr rfl
  · show convertGlobToRegexF (2 * glob.data.length + 3 + 1) glob.data anchored = none ↔ _
    rw [convertGlobToRegexF]
    cases hneg : convertGlobNegationsToRegexF (2 * glob.data.length + 3) glob.data anchored with
    | some m =>
      simp only
      constructor
      · intro h; cases h
      · rintro ⟨h1, _⟩
        rw [show convertGlobNegationsToRegexL glob.data anchored =
          convertGlobNegationsToRegexF (2 * glob.data.length + 3) glob.data anchored from rfl,
          hneg] at h1
        cases h1
    | none =>
      simp only
      have hL : convertGlobNegationsToRegexL glob.data anchored = none := hneg
      by_cases hemp : (convertGlobToRegexStringL glob.data anchored).isEmpty = true
      · rw [if_pos hemp]
        have hstr : convertGlobToRegexString glob anchored = "" := by
          have h0 := List.isEmpty_iff.mp hemp
          rw [convertGlobToRegexString, h0]
        simp [hL, hstr]
      · rw [if_neg hemp]
        have hne : convertGlobToRegexString glob anchored ≠ "" := by
          intro hc
          apply hemp
          rw [List.isEmpty_iff]
          have : (convertGlobToRegexString glob anchored).data =
              convertGlobToRegexStringL glob.data anchored := rfl
          rw [hc] at this
          exact this.symm
        have hdata : (convertGlobToRegexString glob anchored).data =
            convertGlobToRegexStringL glob.data anchored := rfl
        constructor
        · intro h
          have hp : parseRegex (convertGlobToRegexStringL glob.data anchored) = none :=
            (newRegExp_none_iff _).mp (Option.map_eq_none'.mp h)
          exact ⟨hL, Or.inr (by rw [hdata]; exact hp)⟩
        · rintro ⟨_, h2 | h2⟩
          · exact absurd h2 hne
          · rw [hdata] at h2
            exact Option.map_eq_none'.mpr ((newRegExp_none_iff _).mpr h2)

/-! ## Claim C10: the empty pattern -/

/-- C10.  The unanchored compile of the empty pattern yields null (its
regex source has zero length), while the anchored compile wraps the empty
body into the non-empty source `^$`, whose matcher accepts exactly the
empty candidate. -/
theorem C10_empty_pattern :
    compileGlob "" false = none ∧
    (compileGlob "" true).isSome = true ∧
    ∀ s : String, (testOpt (compileGlob "" true) s = true ↔ s = "") := by
  refine ⟨rfl, by decide, ?_⟩
  intro s
  have key : testOpt (compileGlob "" true) s =
      reTest (.cat .bol (.cat .eol .eps)) s.data := rfl
  rw [key]
  constructor
  · intro h
    obtain ⟨i, j, hi, hsp⟩ := (reTest_iff _ _).mp h
    obtain ⟨k, h1, h2⟩ := (span_cat_iff _ _ _ _ _).mp hsp
    obtain ⟨hi0, hk0⟩ := (span_bol_iff _ _ _).mp h1
    obtain ⟨m, h3, h4⟩ := (span_cat_iff _ _ _ _ _).mp h2
    obtain ⟨hkl, _⟩ := (span_eol_iff _ _ _).mp h3
    have hd : s.data = [] := List.length_eq_zero.mp (by omega)
    obtain ⟨l⟩ := s
    exact congrArg String.mk hd
  · intro h
    subst h
    decide

/-! ## Claim C6: brace alternation is the union of the alternative globs -/

example :
    parseRegex "[^\\/\\\\]*\\.(js|ts)".data =
      some (.cat (.star (.cls true [.single '/', .single '\\']))
        (.cat (.lit '.')
          (.cat (.alt (.cat (.lit 'j') (.cat (.lit 's') .eps))
                      (.cat (.lit 't') (.cat (.lit 's') .eps))) .eps))) := by decide

/-- C6.  For every candidate, the matcher of `*.{js,ts}` accepts exactly
when the matcher of `*.js` or the matcher of `*.ts` does: the brace
alternation compiles to an alternation group whose occurrences are the
union of the two per-alternative patterns' occurrences. -/
theorem C6_brace_union (x : String) :
    testOpt (compileGlob "*.\x7bjs,ts\x7d") x =
      (testOpt (compileGlob "*.js") x || testOpt (compileGlob "*.ts") x) := by
  have hA : testOpt (compileGlob "*.\x7bjs,ts\x7d") x =
      reTest (.cat (.star (.cls true [.single '/', .single '\\']))
        (.cat (.lit '.')
          (.cat (.alt (.cat (.lit 'j') (.cat (.lit 's') .eps))
                      (.cat (.lit 't') (.cat (.lit 's') .eps))) .eps))) x.data := rfl
  have hB : testOpt (compileGlob "*.js") x =
      reTest (.cat (.star (.cls true [.single '/', .single '\\']))
        (.cat (.lit '.') (.cat (.lit 'j') (.cat (.lit 's') .eps)))) x.data := rfl
  have hC : testOpt (compileGlob "*.ts") x =
      reTest (.cat (.star (.cls true [.single '/', .single '\\']))
        (.cat (.lit '.') (.cat (.lit 't') (.cat (.lit 's') .eps)))) x.data := rfl
  rw [hA, hB, hC]
  have hspan : ∀ i j : Nat,
      Span x.data (.cat (.star (.cls true [.single '/', .single '\\']))
        (.cat (.lit '.')
          (.cat (.alt (.cat (.lit 'j') (.cat (.lit 's') .eps))
                      (.cat (.lit 't') (.cat (.lit 's') .eps))) .eps))) i j ↔
      (Span x.data (.cat (.star (.cls true [.single '/', .single '\\']))
        (.cat (.lit '.') (.cat (.lit 'j') (.cat (.lit 's') .eps)))) i j ∨
       Span x.data (.cat (.star (.cls true [.single '/', .single '\\']))
        (.cat (.lit '.') (.cat (.lit 't') (.cat (.lit 's') .eps)))) i j) := by
    intro i j
    simp only [span_cat_iff, span_alt_iff, span_eps_iff]
    constructor
    · rintro ⟨k, h1, m, h2, n, (h3 | h3), rfl⟩
      · exact Or.inl ⟨k, h1, m, h2, h3⟩
      · exact Or.inr ⟨k, h1, m, h2, h3⟩
    · rintro (⟨k, h1, m, h2, h3⟩ | ⟨k, h1, m, h2, h3⟩)
      · exact ⟨k, h1, m, h2, j, Or.inl h3, rfl⟩
      · exact ⟨k, h1, m, h2, j, Or.inr h3, rfl⟩
  have hiff : reTest (.cat (.star (.cls true [.single '/', .single '\\']))
        (.cat (.lit '.')
          (.cat (.alt (.cat (.lit 'j') (.cat (.lit 's') .eps))
                      (.cat (.lit 't') (.cat (.lit 's') .eps))) .eps))) x.data = true ↔
      (reTest (.cat (.star (.cls true [.single '/', .single '\\']))
        (.cat (.lit '.') (.cat (.lit 'j') (.cat (.lit 's') .eps)))) x.data = true ∨
       reTest (.cat (.star (.cls true [.single '/', .single '\\']))
        (.cat (.lit '.') (.cat (.lit 't') (.cat (.lit 's') .eps)))) x.data = true) := by
    rw [reTest_iff, reTest_iff, reTest_iff]
    constructor
    · rintro ⟨i, j, hi, hsp⟩
      rcases (hspan i j).mp hsp with h | h
      · exact Or.inl ⟨i, j, hi, h⟩
      · exact Or.inr ⟨i, j, hi, h⟩
    · rintro (⟨i, j, hi, h⟩ | ⟨i, j, hi, h⟩)
      · exact ⟨i, j, hi, (hspan i j).mpr (Or.inl h)⟩
      · exact ⟨i, j, hi, (hspan i j).mpr (Or.inr h)⟩
  revert hiff
  rcases reTest (.cat (.star (.cls true [.single '/', .single '\\']))
        (.cat (.lit '.')
          (.cat (.alt (.cat (.lit 'j') (.cat (.lit 's') .eps))
                      (.cat (.lit 't') (.cat (.lit 's') .eps))) .eps))) x.data with _ | _ <;>
    rcases reTest (.cat (.star (.cls true [.single '/', .single '\\']))
        (.cat (.lit '.') (.cat (.lit 'j') (.cat (.lit 's') .eps)))) x.data with _ | _ <;>
    rcases reTest (.cat (.star (.cls true [.single '/', .single '\\']))
        (.cat (.lit '.') (.cat (.lit 't') (.cat (.lit 's') .eps)))) x.data with _ | _ <;>
    simp

/-! ## Claim C4: anchored acceptance implies unanchored acceptance

The machinery below relates the reading of the anchored source
`^` ++ body ++ `$` to the reading of `body` itself. -/

theorem pRun_nil (st : PState) : pRun st [] = some st := rfl

theorem pRun_cons (st : PState) (c : Char) (cs : List Char) :
    pRun st (c :: cs) = pStep st c >>= fun t => pRun t cs :=
  List.foldlM_cons ..

theorem pRun_append (st : PState) (l1 l2 : List Char) :
    pRun st (l1 ++ l2) = pRun st l1 >>= fun t => pRun t l2 :=
  List.foldlM_append ..

theorem parseRegex_eq_pRun (src : List Char) :
    parseRegex src = pRun pInit src >>= pFinish := rfl

theorem seqR_cons (r : Regex) (seq : List Regex) (init : Regex) :
    seqR (r :: seq) init = seqR seq (.cat r init) := rfl

theorem seqR_snoc (seq : List Regex) (r : Regex) (init : Regex) :
    seqR (seq ++ [r]) init = .cat r (seqR seq init) := by
  rw [seqR, seqR, List.foldl_append]
  rfl

theorem altR_snoc (as : List Regex) (a : Regex) (init : Regex) :
    altR (as ++ [a]) init = .alt a (altR as init) := by
  rw [altR, altR, List.foldl_append]
  rfl

theorem seqFinish_eq_seqR (seq : List Regex) : seqFinish seq = seqR seq .eps := rfl

theorem altFinish_eq_altR (alts seq : List Regex) :
    altFinish alts seq = altR alts (seqFinish seq) := rfl

theorem seqFinish_snoc_bol (seq : List Regex) :
    seqFinish (seq ++ [Regex.bol]) = .cat .bol (seqFinish seq) := by
  rw [seqFinish_eq_seqR, seqFinish_eq_seqR, seqR_snoc]

theorem isAnchorAtom_seqR :
    ∀ (seq : List Regex) (init : Regex), isAnchorAtom init = false →
      isAnchorAtom (seqR seq init) = false := by
  intro seq
  induction seq with
  | nil => intro init h; exact h
  | cons r seq ih =>
    intro init _
    rw [seqR_cons]
    exact ih (.cat r init) rfl

theorem isAnchorAtom_altR :
    ∀ (as : List Regex) (init : Regex), isAnchorAtom init = false →
      isAnchorAtom (altR as init) = false := by
  intro as
  induction as with
  | nil => intro init h; exact h
  | cons a as ih =>
    intro init _
    rw [show altR (a :: as) init = altR as (.alt a init) from rfl]
    exact ih (.alt a init) rfl

theorem isAnchorAtom_altFinish (alts seq : List Regex) :
    isAnchorAtom (altFinish alts seq) = false := by
  rw [altFinish_eq_altR]
  exact isAnchorAtom_altR alts _ (isAnchorAtom_seqR seq .eps rfl)

theorem LevRel_cons (r : Regex) {alts seq alts' seq' : List Regex}
    (h : LevRel alts seq alts' seq') : LevRel alts (r :: seq) alts' (r :: seq') := by
  rcases h with ⟨h1, h2, h3⟩ | ⟨as, a, h1, h2, h3⟩
  · exact Or.inl ⟨h1, h2, by rw [h3]; rfl⟩
  · exact Or.inr ⟨as, a, h1, h2, by rw [h3]⟩

theorem BotRel_withMode (m : PMode) {st st' : PState} (h : BotRel st st') :
    BotRel { st with mode := m } { st' with mode := m } :=
  ⟨rfl, h.2⟩

theorem BotRel_pushAtom (r : Regex) (m : PMode) {st st' : PState} (h : BotRel st st') :
    BotRel { st with seq := r :: st.seq, mode := m }
      { st' with seq := r :: st'.seq, mode := m } := by
  refine ⟨rfl, ?_⟩
  rcases h.2 with ⟨h1, h2, hlev⟩ | ⟨fs, f, f', h1, h2, h3, h4, hlev⟩
  · exact Or.inl ⟨h1, h2, LevRel_cons r hlev⟩
  · exact Or.inr ⟨fs, f, f', h1, h2, h3, by rw [h4], hlev⟩

theorem BotRel_pushAtomKeep {r : Regex} {st st' : PState} (h : BotRel st st') :
    BotRel { st with seq := r :: st.seq } { st' with seq := r :: st'.seq } := by
  refine ⟨h.1, ?_⟩
  rcases h.2 with ⟨h1, h2, hlev⟩ | ⟨fs, f, f', h1, h2, h3, h4, hlev⟩
  · exact Or.inl ⟨h1, h2, LevRel_cons r hlev⟩
  · exact Or.inr ⟨fs, f, f', h1, h2, h3, by rw [h4], hlev⟩

theorem quantApply_botRel (q : Regex → Regex) {st st' : PState} (h : BotRel st st') :
    OBotRel (quantApply q st) (quantApply q st') := by
  obtain ⟨stk, alts, seq, mode⟩ := st
  obtain ⟨stk', alts', seq', mode'⟩ := st'
  obtain ⟨hmode, hcase⟩ := h
  simp only at hmode
  rw [quantApply, quantApply]
  rcases hcase with ⟨g1, g2, hlev⟩ | ⟨fs, f, f', g1, g2, g3, g4, hlev⟩
  · simp only at g1 g2
    rcases hlev with ⟨a1, a2, a3⟩ | ⟨as, a, a1, a2, a3⟩
    · simp only at a1 a2 a3
      subst a1 a2 a3 g1 g2 hmode
      cases seq with
      | nil =>
        simp only [List.nil_append]
        trivial
      | cons x xs =>
        simp only [List.cons_append]
        by_cases hx : isAnchorAtom x = true
        · rw [if_pos hx, if_pos hx]; trivial
        · rw [if_neg hx, if_neg hx]
          exact ⟨rfl, Or.inl ⟨rfl, rfl, Or.inl ⟨rfl, rfl, rfl⟩⟩⟩
    · simp only at a1 a2 a3
      subst a1 a2 a3 g1 g2 hmode
      cases seq' with
      | nil => trivial
      | cons x xs =>
        dsimp only
        by_cases hx : isAnchorAtom x = true
        · rw [if_pos hx, if_pos hx]; trivial
        · rw [if_neg hx, if_neg hx]
          exact ⟨rfl, Or.inl ⟨rfl, rfl, Or.inr ⟨as, a, rfl, rfl, rfl⟩⟩⟩
  · simp only at g1 g2 g3 g4
    subst g1 g2 g3 g4 hmode
    cases seq' with
    | nil => trivial
    | cons x xs =>
      dsimp only
      by_cases hx : isAnchorAtom x = true
      · rw [if_pos hx, if_pos hx]; trivial
      · rw [if_neg hx, if_neg hx]
        exact ⟨rfl, Or.inr ⟨fs, f, f', rfl, rfl, rfl, rfl, hlev⟩⟩

theorem stepNorm_botRel (c : Char) {st st' : PState} (h : BotRel st st') :
    OBotRel (stepNorm st c) (stepNorm st' c) := by
  by_cases h1 : c = '\\'
  · rw [stepNorm, stepNorm, if_pos h1, if_pos h1]
    exact BotRel_withMode .esc h
  · by_cases h2 : c = '['
    · rw [stepNorm, stepNorm, if_neg h1, if_neg h1, if_pos h2, if_pos h2]
      exact BotRel_withMode _ h
    · by_cases h3 : c = '('
      · rw [stepNorm, stepNorm, if_neg h1, if_neg h1, if_neg h2, if_neg h2,
          if_pos h3, if_pos h3]
        obtain ⟨hmode, hcase⟩ := h
        refine ⟨rfl, ?_⟩
        rcases hcase with ⟨g1, g2, hlev⟩ | ⟨fs, f, f', g1, g2, g3, g4, hlev⟩
        · exact Or.inr ⟨[], ⟨st.alts, st.seq⟩, ⟨st'.alts, st'.seq⟩,
            by simp [g1], by simp [g2], rfl, rfl, hlev⟩
        · exact Or.inr ⟨⟨st.alts, st.seq⟩ :: fs, f, f',
            by simp [g1], by simp [g2, g3, g4], rfl, rfl, hlev⟩
      · by_cases h4 : c = ')'
        · rw [stepNorm, stepNorm, if_neg h1, if_neg h1, if_neg h2, if_neg h2,
            if_neg h3, if_neg h3, if_pos h4, if_pos h4]
          obtain ⟨hmode, hcase⟩ := h
          rcases hcase with ⟨g1, g2, hlev⟩ | ⟨fs, f, f', g1, g2, g3, g4, hlev⟩
          · rw [g1, g2]; trivial
          · cases fs with
            | nil =>
              simp only [List.nil_append] at g1 g2
              rw [g1, g2]
              refine ⟨rfl, Or.inl ⟨rfl, rfl, ?_⟩⟩
              rw [g3, g4]
              exact LevRel_cons _ hlev
            | cons g gs =>
              simp only [List.cons_append] at g1 g2
              rw [g1, g2]
              refine ⟨rfl, Or.inr ⟨gs, f, f', rfl, rfl, rfl, ?_, hlev⟩⟩
              rw [g3, g4]
        · by_cases h5 : c = '|'
          · rw [stepNorm, stepNorm, if_neg h1, if_neg h1, if_neg h2, if_neg h2,
              if_neg h3, if_neg h3, if_neg h4, if_neg h4, if_pos h5, if_pos h5]
            obtain ⟨hmode, hcase⟩ := h
            refine ⟨hmode, ?_⟩
            rcases hcase with ⟨g1, g2, hlev⟩ | ⟨fs, f, f', g1, g2, g3, g4, hlev⟩
            · rcases hlev with ⟨a1, a2, a3⟩ | ⟨as, a, a1, a2, a3⟩
              · refine Or.inl ⟨g1, g2, Or.inr ⟨[], seqFinish st.seq, ?_, ?_, rfl⟩⟩
                · rw [a1]; rfl
                · rw [a2, a3, seqFinish_snoc_bol]; rfl
              · refine Or.inl ⟨g1, g2, Or.inr ⟨seqFinish st.seq :: as, a, ?_, ?_, rfl⟩⟩
                · rw [a1]; rfl
                · rw [a2, a3]; rfl
            · refine Or.inr ⟨fs, f, f', g1, g2, ?_, rfl, hlev⟩
              rw [g3, g4]
          · by_cases h6 : c = '*'
            · rw [stepNorm, stepNorm, if_neg h1, if_neg h1, if_neg h2, if_neg h2,
                if_neg h3, if_neg h3, if_neg h4, if_neg h4, if_neg h5, if_neg h5,
                if_pos h6, if_pos h6]
              exact quantApply_botRel _ h
            · by_cases h7 : c = '+'
              · rw [stepNorm, stepNorm, if_neg h1, if_neg h1, if_neg h2, if_neg h2,
                  if_neg h3, if_neg h3, if_neg h4, if_neg h4, if_neg h5, if_neg h5,
                  if_neg h6, if_neg h6, if_pos h7, if_pos h7]
                exact quantApply_botRel _ h
              · by_cases h8 : c = '?'
                · rw [stepNorm, stepNorm, if_neg h1, if_neg h1, if_neg h2, if_neg h2,
                    if_neg h3, if_neg h3, if_neg h4, if_neg h4, if_neg h5, if_neg h5,
                    if_neg h6, if_neg h6, if_neg h7, if_neg h7, if_pos h8, if_pos h8]
                  exact quantApply_botRel _ h
                · by_cases h9 : c = '^'
                  · rw [stepNorm, stepNorm, if_neg h1, if_neg h1, if_neg h2, if_neg h2,
                      if_neg h3, if_neg h3, if_neg h4, if_neg h4, if_neg h5, if_neg h5,
                      if_neg h6, if_neg h6, if_neg h7, if_neg h7, if_neg h8, if_neg h8,
                      if_pos h9, if_pos h9]
                    exact BotRel_pushAtomKeep h
                  · by_cases h10 : c = '$'
                    · rw [stepNorm, stepNorm, if_neg h1, if_neg h1, if_neg h2, if_neg h2,
                        if_neg h3, if_neg h3, if_neg h4, if_neg h4, if_neg h5, if_neg h5,
                        if_neg h6, if_neg h6, if_neg h7, if_neg h7, if_neg h8, if_neg h8,
                        if_neg h9, if_neg h9, if_pos h10, if_pos h10]
                      exact BotRel_pushAtomKeep h
                    · by_cases h11 : c = '.'
                      · rw [stepNorm, stepNorm, if_neg h1, if_neg h1, if_neg h2, if_neg h2,
                          if_neg h3, if_neg h3, if_neg h4, if_neg h4, if_neg h5, if_neg h5,
                          if_neg h6, if_neg h6, if_neg h7, if_neg h7, if_neg h8, if_neg h8,
                          if_neg h9, if_neg h9, if_neg h10, if_neg h10, if_pos h11, if_pos h11]
                        exact BotRel_pushAtomKeep h
                      · rw [stepNorm, stepNorm, if_neg h1, if_neg h1, if_neg h2, if_neg h2,
                          if_neg h3, if_neg h3, if_neg h4, if_neg h4, if_neg h5, if_neg h5,
                          if_neg h6, if_neg h6, if_neg h7, if_neg h7, if_neg h8, if_neg h8,
                          if_neg h9, if_neg h9, if_neg h10, if_neg h10, if_neg h11, if_neg h11]
                        exact BotRel_pushAtomKeep h

theorem pStep_botRel (c : Char) {st st' : PState} (h : BotRel st st') :
    OBotRel (pStep st c) (pStep st' c) := by
  obtain ⟨hmode, hcase⟩ := h
  rw [pStep, pStep, hmode]
  cases hm : st.mode with
  | norm => exact stepNorm_botRel c ⟨hmode, hcase⟩
  | esc => exact BotRel_pushAtom (escAtom c) .norm ⟨hmode, hcase⟩
  | grpOpen =>
    by_cases hq : c = '?'
    · rw [if_pos hq, if_pos hq]
      exact BotRel_withMode _ ⟨hmode, hcase⟩
    · rw [if_neg hq, if_neg hq]
      exact stepNorm_botRel c (BotRel_withMode .norm ⟨hmode, hcase⟩)
  | grpOpenQ =>
    by_cases hq : c = ':'
    · rw [if_pos hq, if_pos hq]
      exact BotRel_withMode _ ⟨hmode, hcase⟩
    · rw [if_neg hq, if_neg hq]
      trivial
  | inCls ccs =>
    dsimp only
    cases hcs : clsStep ccs c with
    | err => trivial
    | close neg items => exact BotRel_pushAtom (Regex.cls neg items) .norm ⟨hmode, hcase⟩
    | cont ccs' => exact BotRel_withMode _ ⟨hmode, hcase⟩

theorem pRun_botRel : ∀ (cs : List Char) {st st' : PState}, BotRel st st' →
    OBotRel (pRun st cs) (pRun st' cs) := by
  intro cs
  induction cs with
  | nil =>
    intro st st' h
    rw [pRun_nil, pRun_nil]
    exact h
  | cons c cs ih =>
    intro st st' h
    rw [pRun_cons, pRun_cons]
    have hstep := pStep_botRel c h
    cases h1 : pStep st c with
    | none =>
      cases h2 : pStep st' c with
      | none => trivial
      | some t' => rw [h1, h2] at hstep; exact hstep.elim
    | some t =>
      cases h2 : pStep st' c with
      | none => rw [h1, h2] at hstep; exact hstep.elim
      | some t' =>
        rw [h1, h2] at hstep
        exact ih hstep

theorem pFinish_botRel {st st' : PState} (h : BotRel st st') :
    (pFinish st = none ∧ pFinish st' = none) ∨
    (∃ r r', pFinish st = some r ∧ pFinish st' = some r' ∧ FinRel r r') := by
  obtain ⟨hmode, hcase⟩ := h
  rw [pFinish, pFinish, hmode]
  cases hm : st.mode with
  | norm =>
    rcases hcase with ⟨g1, g2, hlev⟩ | ⟨fs, f, f', g1, g2, g3, g4, hlev⟩
    · rw [g1, g2]
      rcases hlev with ⟨a1, a2, a3⟩ | ⟨as, a, a1, a2, a3⟩
      · refine Or.inr ⟨altFinish st.alts st.seq, altFinish st'.alts st'.seq,
          rfl, rfl, Or.inl ?_⟩
        rw [a1, a2, a3]
        simp only [altFinish, List.foldl_nil]
        exact seqFinish_snoc_bol st.seq
      · refine Or.inr ⟨altFinish st.alts st.seq, altFinish st'.alts st'.seq,
          rfl, rfl, Or.inr ⟨a, altR as (seqFinish st.seq), ?_, ?_⟩⟩
        · rw [altFinish_eq_altR, a1, altR_snoc]
        · rw [altFinish_eq_altR, a2, a3, altR_snoc]
    · rw [g1, g2]
      cases fs with
      | nil => simp only [List.nil_append]; exact Or.inl ⟨by trivial, by trivial⟩
      | cons g gs => simp only [List.cons_append]; exact Or.inl ⟨by trivial, by trivial⟩
  | esc => exact Or.inl ⟨rfl, rfl⟩
  | grpOpen => exact Or.inl ⟨rfl, rfl⟩
  | grpOpenQ => exact Or.inl ⟨rfl, rfl⟩
  | inCls ccs => exact Or.inl ⟨rfl, rfl⟩


theorem pRun_grpOpen_eq (pst : PState) (h : pst.mode = .grpOpen) (c : Char)
    (hc : c ≠ '?') (cs : List Char) :
    pRun pst (c :: cs) = pRun { pst with mode := .norm } (c :: cs) := by
  rw [pRun_cons, pRun_cons, pStep, pStep, h]
  simp only [if_neg hc]

theorem chunk_mode2 {pst : PState} (hm : pst.mode = .norm ∨ pst.mode = .grpOpen)
    (c : Char) (cs : List Char) (hc : c ≠ '?') {sq : Bool}
    (h : ∀ stk alts seq, POkO (pRun ⟨stk, alts, seq, .norm⟩ (c :: cs)) sq) :
    POkO (pRun pst (c :: cs)) sq := by
  rcases hm with h1 | h1
  · obtain ⟨stk, alts, seq, mode⟩ := pst
    simp only at h1
    subst h1
    exact h stk alts seq
  · rw [pRun_grpOpen_eq pst h1 c hc]
    exact h pst.stack pst.alts pst.seq

theorem clsAtom_ne_close (cs : ClsSt) (c : Char) (n : Bool) (items : List CItem) :
    clsAtom cs c ≠ .close n items := by
  rw [clsAtom]
  cases htail : cs.tail with
  | nil => simp
  | pend p => simp
  | pendDash p => dsimp only; split <;> simp

theorem clsShorthand_ne_close (cs : ClsSt) (item : CItem) (n : Bool) (items : List CItem) :
    clsShorthand cs item ≠ .close n items := by
  rw [clsShorthand]
  cases htail : cs.tail <;> simp

theorem clsStep_close_imp (cs : ClsSt) (c : Char) (n : Bool) (items : List CItem)
    (h : clsStep cs c = .close n items) : c = ']' := by
  rw [clsStep] at h
  by_cases h1 : cs.esc = true
  · rw [if_pos h1] at h
    cases hce : classEsc c with
    | inl item' =>
      rw [hce] at h
      dsimp only at h
      exact absurd h (clsShorthand_ne_close cs item' n items)
    | inr a =>
      rw [hce] at h
      dsimp only at h
      exact absurd h (clsAtom_ne_close cs a n items)
  · rw [if_neg h1] at h
    by_cases h2 : c = '\\'
    · rw [if_pos h2] at h; cases h
    rw [if_neg h2] at h
    by_cases h3 : c = ']'
    · exact h3
    rw [if_neg h3] at h
    by_cases h4 : (cs.first && c = '^') = true
    · rw [if_pos h4] at h; cases h
    rw [if_neg h4] at h
    by_cases h5 : c = '-'
    · rw [if_pos h5] at h
      cases htail : cs.tail with
      | nil =>
        rw [htail] at h
        dsimp only at h
        exact absurd h (clsAtom_ne_close cs c n items)
      | pend p =>
        rw [htail] at h
        dsimp only at h
        cases h
      | pendDash p =>
        rw [htail] at h
        dsimp only at h
        exact absurd h (clsAtom_ne_close cs c n items)
    · rw [if_neg h5] at h
      exact absurd h (clsAtom_ne_close cs c n items)

theorem clsAtom_cont_esc (cs : ClsSt) (c : Char) (cs' : ClsSt)
    (h : clsAtom cs c = .cont cs') : cs'.esc = false := by
  rw [clsAtom] at h
  cases htail : cs.tail with
  | nil => rw [htail] at h; dsimp only at h; cases h; rfl
  | pend p => rw [htail] at h; dsimp only at h; cases h; rfl
  | pendDash p =>
    rw [htail] at h
    dsimp only at h
    split at h
    · cases h; rfl
    · cases h

theorem clsShorthand_cont_esc (cs : ClsSt) (item : CItem) (cs' : ClsSt)
    (h : clsShorthand cs item = .cont cs') : cs'.esc = false := by
  rw [clsShorthand] at h
  cases htail : cs.tail <;> rw [htail] at h <;> dsimp only at h <;> (cases h; rfl)

theorem clsStep_cont_esc (cs : ClsSt) (c : Char) (cs' : ClsSt) (hesc : cs.esc = false)
    (hbs : c ≠ '\\') (h : clsStep cs c = .cont cs') : cs'.esc = false := by
  rw [clsStep] at h
  rw [hesc] at h
  simp only [Bool.false_eq_true, if_false] at h
  rw [if_neg hbs] at h
  by_cases h3 : c = ']'
  · rw [if_pos h3] at h; cases h
  rw [if_neg h3] at h
  by_cases h4 : (cs.first && c = '^') = true
  · rw [if_pos h4] at h; cases h; rfl
  rw [if_neg h4] at h
  by_cases h5 : c = '-'
  · rw [if_pos h5] at h
    cases htail : cs.tail with
    | nil => rw [htail] at h; dsimp only at h; exact clsAtom_cont_esc _ _ _ h
    | pend p => rw [htail] at h; dsimp only at h; cases h; rfl
    | pendDash p => rw [htail] at h; dsimp only at h; exact clsAtom_cont_esc _ _ _ h
  · rw [if_neg h5] at h
    exact clsAtom_cont_esc _ _ _ h

theorem clsStep_escT_cont (cs : ClsSt) (c : Char) (cs' : ClsSt) (hesc : cs.esc = true)
    (h : clsStep cs c = .cont cs') : cs'.esc = false := by
  rw [clsStep, if_pos hesc] at h
  cases hce : classEsc c with
  | inl item => rw [hce] at h; dsimp only at h; exact clsShorthand_cont_esc _ _ _ h
  | inr a => rw [hce] at h; dsimp only at h; exact clsAtom_cont_esc _ _ _ h

theorem pRun_single (st : PState) (c : Char) : pRun st [c] = pStep st c := by
  rw [pRun_cons]
  cases pStep st c <;> rfl

theorem pok_chain {pst : PState} {l1 l2 : List Char} {b1 b2 : Bool}
    (h1 : POkO (pRun pst l1) b1)
    (h2 : ∀ q : PState, POk q b1 → POkO (pRun q l2) b2) :
    POkO (pRun pst (l1 ++ l2)) b2 := by
  rw [pRun_append]
  cases hx : pRun pst l1 with
  | none => exact trivial
  | some q =>
    rw [hx] at h1
    exact h2 q h1

theorem POkO_ne_esc {x : Option PState} {b : Bool} (h : POkO x b) :
    ∀ q : PState, x = some q → q.mode ≠ .esc := by
  intro q hq
  rw [hq] at h
  cases b with
  | false =>
    rcases h with h | h <;> rw [h] <;> exact fun hx => nomatch hx
  | true =>
    obtain ⟨ccs, hm, _⟩ := h
    rw [hm]
    exact fun hx => nomatch hx

theorem quantApply_pok (q : Regex → Regex) (stk : List Frame) (alts seq : List Regex) :
    POkO (quantApply q ⟨stk, alts, seq, .norm⟩) false := by
  rw [quantApply]
  cases seq with
  | nil => exact trivial
  | cons a s' =>
    dsimp only
    split
    · exact trivial
    · exact Or.inl rfl

theorem single_chunk_pok {pst : PState} (hm : pst.mode = .norm ∨ pst.mode = .grpOpen)
    (c : Char) (h0 : c ≠ '?') (h1 : c ≠ '\\') (h2 : c ≠ '[') :
    POkO (pRun pst [c]) false := by
  refine chunk_mode2 hm c [] h0 ?_
  intro stk alts seq
  rw [pRun_single]
  show POkO (stepNorm ⟨stk, alts, seq, .norm⟩ c) false
  rw [stepNorm, if_neg h1, if_neg h2]
  by_cases h3 : c = '('
  · rw [if_pos h3]; exact Or.inr rfl
  rw [if_neg h3]
  by_cases h4 : c = ')'
  · rw [if_pos h4]
    cases stk with
    | nil => exact trivial
    | cons f fs => exact Or.inl rfl
  rw [if_neg h4]
  by_cases h5 : c = '|'
  · rw [if_pos h5]; exact Or.inl rfl
  rw [if_neg h5]
  by_cases h6 : c = '*'
  · rw [if_pos h6]; exact quantApply_pok ..
  rw [if_neg h6]
  by_cases h7 : c = '+'
  · rw [if_pos h7]; exact quantApply_pok ..
  rw [if_neg h7, if_neg h0]
  by_cases h9 : c = '^'
  · rw [if_pos h9]; exact Or.inl rfl
  rw [if_neg h9]
  by_cases h10 : c = '$'
  · rw [if_pos h10]; exact Or.inl rfl
  rw [if_neg h10]
  by_cases h11 : c = '.'
  · rw [if_pos h11]; exact Or.inl rfl
  rw [if_neg h11]
  exact Or.inl rfl

theorem lbrack_chunk_pok {pst : PState} (hm : pst.mode = .norm ∨ pst.mode = .grpOpen) :
    POkO (pRun pst ['[']) true := by
  refine chunk_mode2 hm '[' [] (by decide) ?_
  intro stk alts seq
  rw [pRun_single]
  have h : pStep ⟨stk, alts, seq, .norm⟩ '[' = some ⟨stk, alts, seq, .inCls clsInit⟩ := by
    simp [pStep, stepNorm]
  rw [h]
  exact ⟨clsInit, rfl, rfl⟩

theorem esc_pair_chunk_pok {pst : PState} (hm : pst.mode = .norm ∨ pst.mode = .grpOpen)
    (c : Char) : POkO (pRun pst ['\\', c]) false := by
  refine chunk_mode2 hm '\\' [c] (by decide) ?_
  intro stk alts seq
  have h1 : pStep ⟨stk, alts, seq, .norm⟩ '\\' = some ⟨stk, alts, seq, .esc⟩ := by
    simp [pStep, stepNorm]
  have h2 : pStep ⟨stk, alts, seq, .esc⟩ c =
      some ⟨stk, alts, escAtom c :: seq, .norm⟩ := by
    rw [pStep]
  simp only [pRun_cons, pRun_nil, h1, h2, Option.bind_eq_bind, Option.some_bind]
  exact Or.inl rfl

theorem star_chunk_pok {pst : PState} (hm : pst.mode = .norm ∨ pst.mode = .grpOpen) :
    POkO (pRun pst ['[', '^', '\\', '/', '\\', '\\', ']', '*']) false := by
  refine chunk_mode2 hm _ _ (by decide) ?_
  intro stk alts seq
  simp [pRun_cons, pRun_nil, pStep, stepNorm, clsStep, clsInit, clsAtom, classEsc,
    clsShorthand, commitTail, quantApply, isAnchorAtom, POkO, POk]

theorem cls_char_chunk_pok {pst : PState} (hp : POk pst true) (c : Char)
    (h1 : c ≠ '\\') (h2 : c ≠ ']') : POkO (pRun pst [c]) true := by
  obtain ⟨ccs, hmode, hesc⟩ := hp
  rw [pRun_single]
  have hps : pStep pst c =
      match clsStep ccs c with
      | .err => none
      | .close neg items => some { pst with mode := .norm, seq := .cls neg items :: pst.seq }
      | .cont cs' => some { pst with mode := .inCls cs' } := by
    rw [pStep, hmode]
  rw [hps]
  cases hcs : clsStep ccs c with
  | err => exact trivial
  | close n i => exact absurd (clsStep_close_imp ccs c n i hcs) h2
  | cont cs' => exact ⟨cs', rfl, clsStep_cont_esc ccs c cs' hesc h1 hcs⟩

theorem cls_close_chunk_pok {pst : PState} (hp : POk pst true) :
    POkO (pRun pst [']']) false := by
  obtain ⟨ccs, hmode, hesc⟩ := hp
  rw [pRun_single]
  have hps : pStep pst ']' =
      match clsStep ccs ']' with
      | .err => none
      | .close neg items => some { pst with mode := .norm, seq := .cls neg items :: pst.seq }
      | .cont cs' => some { pst with mode := .inCls cs' } := by
    rw [pStep, hmode]
  have hcl : clsStep ccs ']' = .close ccs.neg (commitTail ccs.items ccs.tail) := by
    rw [clsStep, hesc]
    simp
  rw [hps, hcl]
  exact Or.inl rfl

theorem cls_esc_pair_chunk_pok {pst : PState} (hp : POk pst true) (c : Char) :
    POkO (pRun pst ['\\', c]) true := by
  obtain ⟨ccs, hmode, hesc⟩ := hp
  have h1 : pStep pst '\\' = some { pst with mode := .inCls { ccs with first := false, esc := true } } := by
    rw [pStep, hmode]
    dsimp only
    have : clsStep ccs '\\' = .cont { ccs with first := false, esc := true } := by
      rw [clsStep, hesc]
      simp
    rw [this]
  rw [pRun_cons, h1]
  show POkO (pRun { pst with mode := .inCls { ccs with first := false, esc := true } } [c]) true
  rw [pRun_single]
  have hps : pStep { pst with mode := .inCls { ccs with first := false, esc := true } } c =
      match clsStep { ccs with first := false, esc := true } c with
      | .err => none
      | .close neg items =>
        some { pst with mode := .norm,
                        seq := .cls neg items :: pst.seq }
      | .cont cs' =>
        some { pst with mode := .inCls cs' } := by
    rw [pStep]
  rw [hps]
  cases hcs : clsStep { ccs with first := false, esc := true } c with
  | err => exact trivial
  | close n i =>
    have he : ClsSt.esc { ccs with first := false, esc := true } = true := rfl
    have hcl := clsStep_close_imp _ c n i hcs
    rw [clsStep, if_pos he] at hcs
    cases hce : classEsc c with
    | inl item =>
      rw [hce] at hcs
      dsimp only at hcs
      exact absurd hcs (clsShorthand_ne_close _ item n i)
    | inr a =>
      rw [hce] at hcs
      dsimp only at hcs
      exact absurd hcs (clsAtom_ne_close _ a n i)
  | cont cs' => exact ⟨cs', rfl, clsStep_escT_cont _ c cs' rfl hcs⟩

theorem q_chunk_pok {pst : PState} (hm : pst.mode = .norm ∨ pst.mode = .grpOpen) :
    POkO (pRun pst ['[', '^', '\\', '/', '\\', '\\', ']']) false := by
  refine chunk_mode2 hm _ _ (by decide) ?_
  intro stk alts seq
  simp [pRun_cons, pRun_nil, pStep, stepNorm, clsStep, clsInit, clsAtom, classEsc,
    clsShorthand, commitTail, quantApply, isAnchorAtom, POkO, POk]

theorem rp_chunk_pok {pst : PState} (hm : pst.mode = .norm ∨ pst.mode = .grpOpen) :
    POkO (pRun pst [')']) false :=
  single_chunk_pok hm ')' (by decide) (by decide) (by decide)

theorem rpq_chunk_pok {pst : PState} (hm : pst.mode = .norm ∨ pst.mode = .grpOpen) :
    POkO (pRun pst [')', '?']) false := by
  refine chunk_mode2 hm _ _ (by decide) ?_
  intro stk alts seq
  cases stk with
  | nil => simp [pRun_cons, pRun_nil, pStep, stepNorm, POkO]
  | cons f fs =>
    simp [pRun_cons, pRun_nil, pStep, stepNorm, quantApply, isAnchorAtom_altFinish,
      POkO, POk]

theorem rps_chunk_pok {pst : PState} (hm : pst.mode = .norm ∨ pst.mode = .grpOpen) :
    POkO (pRun pst [')', '*']) false := by
  refine chunk_mode2 hm _ _ (by decide) ?_
  intro stk alts seq
  cases stk with
  | nil => simp [pRun_cons, pRun_nil, pStep, stepNorm, POkO]
  | cons f fs =>
    simp [pRun_cons, pRun_nil, pStep, stepNorm, quantApply, isAnchorAtom_altFinish,
      POkO, POk]

theorem rpp_chunk_pok {pst : PState} (hm : pst.mode = .norm ∨ pst.mode = .grpOpen) :
    POkO (pRun pst [')', '+']) false := by
  refine chunk_mode2 hm _ _ (by decide) ?_
  intro stk alts seq
  cases stk with
  | nil => simp [pRun_cons, pRun_nil, pStep, stepNorm, POkO]
  | cons f fs =>
    simp [pRun_cons, pRun_nil, pStep, stepNorm, quantApply, isAnchorAtom_altFinish,
      POkO, POk]

theorem grp3_chunk_pok {pst : PState} (hm : pst.mode = .norm ∨ pst.mode = .grpOpen) :
    POkO (pRun pst ['(', '?', ':']) false := by
  refine chunk_mode2 hm _ _ (by decide) ?_
  intro stk alts seq
  simp [pRun_cons, pRun_nil, pStep, stepNorm, POkO, POk]

theorem dotstar_chunk_pok {pst : PState} (hm : pst.mode = .norm ∨ pst.mode = .grpOpen) :
    POkO (pRun pst ['.', '*']) false := by
  refine chunk_mode2 hm _ _ (by decide) ?_
  intro stk alts seq
  simp [pRun_cons, pRun_nil, pStep, stepNorm, quantApply, isAnchorAtom, POkO, POk]

theorem plainStep_chunk_pok (c : Char) (curly : Bool) (stack : List Char) {pst : PState}
    (hm : pst.mode = .norm ∨ pst.mode = .grpOpen) :
    POkO (pRun pst (plainStep c curly stack).1) (plainStep c curly stack).2.1 := by
  by_cases h1 : c = ')'
  · cases hstk : stack with
    | nil => simp only [plainStep, if_pos h1, hstk]; exact esc_pair_chunk_pok hm ')'
    | cons t stack' =>
      simp only [plainStep, if_pos h1, hstk]
      by_cases ht1 : t = '?'
      · simp only [suffixFor, if_pos ht1]; exact rpq_chunk_pok hm
      by_cases ht2 : t = '*'
      · simp only [suffixFor, if_neg ht1, if_pos ht2]; exact rps_chunk_pok hm
      by_cases ht3 : t = '+'
      · simp only [suffixFor, if_neg ht1, if_neg ht2, if_pos ht3]; exact rpp_chunk_pok hm
      · simp only [suffixFor, if_neg ht1, if_neg ht2, if_neg ht3]; exact rp_chunk_pok hm
  rw [plainStep.eq_def, if_neg h1]
  by_cases h2 : c = '*'
  · rw [if_pos h2]; exact star_chunk_pok hm
  rw [if_neg h2]
  by_cases h3 : c = '?'
  · rw [if_pos h3]; exact q_chunk_pok hm
  rw [if_neg h3]
  by_cases h4 : c = '['
  · rw [if_pos h4]; exact lbrack_chunk_pok hm
  rw [if_neg h4]
  by_cases h5 : c = '\x7b'
  · rw [if_pos h5]
    exact single_chunk_pok hm '(' (by decide) (by decide) (by decide)
  rw [if_neg h5]
  by_cases h6 : c = '\x7d'
  · rw [if_pos h6]; exact rp_chunk_pok hm
  rw [if_neg h6]
  by_cases h7 : (c = ',' && curly) = true
  · rw [if_pos h7]
    exact single_chunk_pok hm '|' (by decide) (by decide) (by decide)
  rw [if_neg h7]
  by_cases h8 : (c = '|' && !stack.isEmpty) = true
  · rw [if_pos h8]
    exact single_chunk_pok hm '|' (by decide) (by decide) (by decide)
  rw [if_neg h8]
  by_cases h9 : inEscapeSet c = true
  · rw [if_pos h9]; exact esc_pair_chunk_pok hm c
  · rw [if_neg h9]
    have hbs : c ≠ '\\' := by
      intro hx; apply h9; rw [hx]; rfl
    exact single_chunk_pok hm c h3 hbs h4

theorem tCore_tok (st : TState) (c : Char) (hpend : st.pend = .idle) :
    TOk (tCore st c).1 := by
  obtain ⟨sq, curly, stack, pend⟩ := st
  simp only at hpend
  subst hpend
  rw [tCore]
  intro e he
  dsimp only at he ⊢
  split_ifs at he ⊢ with h1 h2 h3 h4 h5
  all_goals first
    | (cases he; done)
    | (cases sq with
       | false => rfl
       | true => exact absurd rfl h2)

theorem tStep_tok (st : TState) (c : Char) (ht : TOk st) : TOk (tStep st c).1 := by
  obtain ⟨sq, curly, stack, pend⟩ := st
  rw [tStep]
  cases pend with
  | idle => exact tCore_tok _ c rfl
  | esc => intro e he; cases he
  | ext e0 =>
    dsimp only
    by_cases h1 : c = '('
    · rw [if_pos h1]; intro e he; cases he
    rw [if_neg h1]
    by_cases h2 : (e0 = '*' && c = '*') = true
    · rw [if_pos h2]; intro e he; cases he
    · rw [if_neg h2]
      exact tCore_tok _ c rfl
  | sstar =>
    dsimp only
    by_cases h1 : c = '/'
    · rw [if_pos h1]; intro e he; cases he
    · rw [if_neg h1]
      exact tCore_tok _ c rfl

theorem tRun_tok : ∀ (cs : List Char) (st : TState), TOk st → TOk (tRun st cs).1
  | [], _, ht => ht
  | c :: cs, st, ht => tRun_tok cs (tStep st c).1 (tStep_tok st c ht)

theorem POk_ne_esc {q : PState} {b : Bool} (h : POk q b) : q.mode ≠ .esc := by
  cases b with
  | false => rcases h with h | h <;> rw [h] <;> exact fun hx => nomatch hx
  | true =>
    obtain ⟨ccs, hm, _⟩ := h
    rw [hm]
    exact fun hx => nomatch hx

theorem tCore_chunk_pok (st : TState) (c : Char) {pst : PState}
    (hp : POk pst st.sq) :
    POkO (pRun pst (tCore st c).2) ((tCore st c).1).sq := by
  obtain ⟨sq, curly, stack, pend⟩ := st
  rw [tCore]
  dsimp only at hp ⊢
  by_cases h1 : c = '\\'
  · rw [if_pos h1]
    exact hp
  rw [if_neg h1]
  cases sq with
  | true =>
    rw [if_pos rfl]
    by_cases h3 : c = ']'
    · rw [if_pos h3]
      exact cls_close_chunk_pok hp
    rw [if_neg h3]
    by_cases h4 : c = '!'
    · rw [if_pos h4]
      exact cls_char_chunk_pok hp '^' (by decide) (by decide)
    · rw [if_neg h4]
      exact cls_char_chunk_pok hp c h1 h3
  | false =>
    rw [if_neg Bool.false_ne_true]
    by_cases h5 : isExtglobChar c = true
    · rw [if_pos h5]
      exact hp
    · rw [if_neg h5]
      exact plainStep_chunk_pok c curly stack hp

theorem tStep_chunk_pok (st : TState) (c : Char) {pst : PState}
    (ht : TOk st) (hp : POk pst st.sq) :
    POkO (pRun pst (tStep st c).2) ((tStep st c).1).sq := by
  obtain ⟨sq, curly, stack, pend⟩ := st
  rw [tStep]
  cases pend with
  | idle => exact tCore_chunk_pok _ c hp
  | esc =>
    dsimp only at hp ⊢
    cases sq with
    | false => exact esc_pair_chunk_pok hp c
    | true => exact cls_esc_pair_chunk_pok hp c
  | ext e0 =>
    have hsq : sq = false := ht e0 rfl
    subst hsq
    dsimp only at hp ⊢
    by_cases h1 : c = '('
    · rw [if_pos h1]
      exact grp3_chunk_pok hp
    rw [if_neg h1]
    by_cases h2 : (e0 = '*' && c = '*') = true
    · rw [if_pos h2]
      exact dotstar_chunk_pok hp
    · rw [if_neg h2]
      refine pok_chain (plainStep_chunk_pok e0 curly stack hp) ?_
      intro q hq
      exact tCore_chunk_pok _ c hq
  | sstar =>
    dsimp only at hp ⊢
    by_cases h1 : c = '/'
    · rw [if_pos h1]
      exact hp
    · rw [if_neg h1]
      exact tCore_chunk_pok _ c hp

theorem tRun_pok : ∀ (cs : List Char) (st : TState) (pst : PState), TOk st → POk pst st.sq →
    POkO (pRun pst ((tRun st cs).2)) ((tRun st cs).1).sq
  | [], st, pst, _, hp => hp
  | c :: cs, st, pst, ht, hp => by
    show POkO (pRun pst ((tStep st c).2 ++ (tRun (tStep st c).1 cs).2))
      ((tRun (tStep st c).1 cs).1).sq
    refine pok_chain (tStep_chunk_pok st c ht hp) ?_
    intro q hq
    exact tRun_pok cs (tStep st c).1 q (tStep_tok st c ht) hq

theorem tFlush_safe (st : TState) {pst : PState} (ht : TOk st) (hp : POk pst st.sq) :
    ∀ q : PState, pRun pst (tFlush st) = some q → q.mode ≠ .esc := by
  obtain ⟨sq, curly, stack, pend⟩ := st
  rw [tFlush]
  dsimp only at hp ⊢
  cases pend with
  | idle =>
    intro q hq
    rw [pRun_nil] at hq
    cases hq
    exact POk_ne_esc hp
  | esc =>
    dsimp only
    cases sq with
    | true =>
      rw [if_pos rfl]
      obtain ⟨ccs, hmode, hesc⟩ := hp
      intro q hq
      rw [pRun_single] at hq
      rw [pStep, hmode] at hq
      dsimp only at hq
      have : clsStep ccs '\\' = .cont { ccs with first := false, esc := true } := by
        rw [clsStep, hesc]
        simp
      rw [this] at hq
      cases hq
      exact fun hx => nomatch hx
    | false =>
      rw [if_neg Bool.false_ne_true]
      intro q hq
      exact POk_ne_esc (hq ▸ plainStep_chunk_pok '\\' curly stack hp : POkO (some q) _)
  | ext e0 =>
    have hsq : sq = false := ht e0 rfl
    subst hsq
    intro q hq
    exact POk_ne_esc (hq ▸ plainStep_chunk_pok e0 curly stack hp : POkO (some q) _)
  | sstar =>
    intro q hq
    rw [pRun_nil] at hq
    cases hq
    exact POk_ne_esc hp

theorem tOk_init : TOk TState.init := by
  intro e he
  cases he

theorem tOut_safe (glob : List Char) {pst : PState}
    (hp : POk pst false) :
    ∀ q : PState, pRun pst (convertGlobToRegexStringL glob false) = some q →
      q.mode ≠ .esc := by
  show ∀ q : PState, pRun pst (tOut TState.init glob) = some q → q.mode ≠ .esc
  rw [tOut]
  intro q hq
  rw [pRun_append] at hq
  cases hx : pRun pst (tRun TState.init glob).2 with
  | none => rw [hx] at hq; cases hq
  | some q1 =>
    rw [hx] at hq
    have hrun := tRun_pok glob TState.init pst tOk_init hp
    rw [hx] at hrun
    exact tFlush_safe (tRun TState.init glob).1 (tRun_tok glob TState.init tOk_init) hrun q hq

theorem stepNorm_grpInv {stk : List Frame} {alts seq : List Regex} {c : Char} {t : PState}
    (h : stepNorm ⟨stk, alts, seq, .norm⟩ c = some t) : GrpInv t := by
  rw [stepNorm] at h
  by_cases h1 : c = '\\'
  · rw [if_pos h1] at h; cases h; intro hx; cases hx
  rw [if_neg h1] at h
  by_cases h2 : c = '['
  · rw [if_pos h2] at h; cases h; intro hx; cases hx
  rw [if_neg h2] at h
  by_cases h3 : c = '('
  · rw [if_pos h3] at h
    cases h
    intro _
    exact List.cons_ne_nil _ _
  rw [if_neg h3] at h
  by_cases h4 : c = ')'
  · rw [if_pos h4] at h
    dsimp only at h
    cases stk with
    | nil => cases h
    | cons f fs => cases h; intro hx; cases hx
  rw [if_neg h4] at h
  by_cases h5 : c = '|'
  · rw [if_pos h5] at h; cases h; intro hx; cases hx
  rw [if_neg h5] at h
  by_cases h6 : c = '*'
  · rw [if_pos h6] at h
    rw [quantApply] at h
    dsimp only at h
    cases seq with
    | nil => cases h
    | cons a s' =>
      dsimp only at h
      split at h
      · cases h
      · cases h; intro hx; cases hx
  rw [if_neg h6] at h
  by_cases h7 : c = '+'
  · rw [if_pos h7] at h
    rw [quantApply] at h
    dsimp only at h
    cases seq with
    | nil => cases h
    | cons a s' =>
      dsimp only at h
      split at h
      · cases h
      · cases h; intro hx; cases hx
  rw [if_neg h7] at h
  by_cases h8 : c = '?'
  · rw [if_pos h8] at h
    rw [quantApply] at h
    dsimp only at h
    cases seq with
    | nil => cases h
    | cons a s' =>
      dsimp only at h
      split at h
      · cases h
      · cases h; intro hx; cases hx
  rw [if_neg h8] at h
  by_cases h9 : c = '^'
  · rw [if_pos h9] at h; cases h; intro hx; cases hx
  rw [if_neg h9] at h
  by_cases h10 : c = '$'
  · rw [if_pos h10] at h; cases h; intro hx; cases hx
  rw [if_neg h10] at h
  by_cases h11 : c = '.'
  · rw [if_pos h11] at h; cases h; intro hx; cases hx
  · rw [if_neg h11] at h; cases h; intro hx; cases hx

theorem pStep_grpInv {st : PState} {c : Char} {t : PState}
    (hg : GrpInv st) (h : pStep st c = some t) : GrpInv t := by
  obtain ⟨stk, alts, seq, mode⟩ := st
  rw [pStep] at h
  cases mode with
  | norm => exact stepNorm_grpInv h
  | esc =>
    dsimp only at h
    cases h
    intro hx
    cases hx
  | grpOpen =>
    dsimp only at h
    split_ifs at h with h1
    · cases h; intro hx; cases hx
    · exact stepNorm_grpInv h
  | grpOpenQ =>
    dsimp only at h
    split_ifs at h with h1
    cases h
    intro hx
    cases hx
  | inCls ccs =>
    dsimp only at h
    cases hcs : clsStep ccs c with
    | err => rw [hcs] at h; cases h
    | close n items => rw [hcs] at h; cases h; intro hx; cases hx
    | cont cs' => rw [hcs] at h; cases h; intro hx; cases hx

theorem pRun_grpInv : ∀ (cs : List Char) {st t : PState},
    GrpInv st → pRun st cs = some t → GrpInv t
  | [], _, _, hg, h => by
    rw [pRun_nil] at h
    cases h
    exact hg
  | c :: cs, st, t, hg, h => by
    rw [pRun_cons] at h
    cases hx : pStep st c with
    | none => rw [hx] at h; cases h
    | some q =>
      rw [hx] at h
      exact pRun_grpInv cs (pStep_grpInv hg hx) h

theorem pFinish_some_iff (st : PState) (r : Regex) :
    pFinish st = some r ↔
      st.mode = .norm ∧ st.stack = [] ∧ r = altFinish st.alts st.seq := by
  obtain ⟨stk, alts, seq, mode⟩ := st
  rw [pFinish]
  dsimp only
  constructor
  · intro h
    cases mode with
    | norm =>
      cases stk with
      | nil =>
        cases h
        exact ⟨rfl, rfl, rfl⟩
      | cons f fs => cases h
    | esc => cases h
    | grpOpen => cases h
    | grpOpenQ => cases h
    | inCls ccs => cases h
  · rintro ⟨h1, h2, rfl⟩
    have h1' : mode = .norm := h1
    have h2' : stk = [] := h2
    subst h1' h2'
    rfl

theorem altR_cons (a : Regex) (as : List Regex) (init : Regex) :
    altR (a :: as) init = altR as (.alt a init) := rfl

theorem span_seqR_init (s : List Char) :
    ∀ (seq : List Regex) (init init' : Regex),
      (∀ a b, Span s init a b → ∃ b', Span s init' a b') →
      ∀ i j, Span s (seqR seq init) i j → ∃ j', Span s (seqR seq init') i j' := by
  intro seq
  induction seq with
  | nil => exact fun init init' h i j hsp => h i j hsp
  | cons r seq ih =>
    intro init init' h i j hsp
    rw [seqR_cons] at hsp ⊢
    refine ih (.cat r init) (.cat r init') ?_ i j hsp
    intro a b hab
    obtain ⟨k, h1, h2⟩ := (span_cat_iff ..).mp hab
    obtain ⟨b', hb'⟩ := h k b h2
    exact ⟨b', Span.cat h1 hb'⟩

theorem span_altR_init (s : List Char) :
    ∀ (as : List Regex) (init init' : Regex),
      (∀ a b, Span s init a b → ∃ b', Span s init' a b') →
      ∀ i j, Span s (altR as init) i j → ∃ j', Span s (altR as init') i j' := by
  intro as
  induction as with
  | nil => exact fun init init' h i j hsp => h i j hsp
  | cons a as ih =>
    intro init init' h i j hsp
    rw [altR_cons] at hsp ⊢
    refine ih (.alt a init) (.alt a init') ?_ i j hsp
    intro x y hxy
    rcases (span_alt_iff ..).mp hxy with hl | hr
    · exact ⟨y, Span.altl hl⟩
    · obtain ⟨y', hy'⟩ := h x y hr
      exact ⟨y', Span.altr hy'⟩

theorem newRegExp_parse {src : List Char} {r : Regex} (h : parseRegex src = some r) :
    ∃ cr : CompiledRegex, newRegExp src = some cr ∧ cr.source = src ∧ cr.ast = r := by
  rw [newRegExp]
  split
  · next r' heq =>
    refine ⟨⟨src, r', heq⟩, rfl, rfl, ?_⟩
    rw [heq] at h
    exact Option.some.inj h
  · next heq =>
    rw [heq] at h
    cases h

theorem tOut_cons (st : TState) (c : Char) (cs : List Char) :
    tOut st (c :: cs) = (tStep st c).2 ++ tOut (tStep st c).1 cs := by
  rw [tOut, tOut, tRun]
  dsimp only
  rw [List.append_assoc]

theorem plainStep_ne (c : Char) (curly : Bool) (stack : List Char) :
    (plainStep c curly stack).1 ≠ [] := by
  rw [plainStep.eq_def]
  by_cases h1 : c = ')'
  · rw [if_pos h1]
    cases stack with
    | nil => simp
    | cons t stack' =>
      dsimp only
      rw [suffixFor]
      split_ifs <;> simp
  rw [if_neg h1]
  split_ifs <;> simp

theorem tOut_init_ne (glob : List Char) (h : glob ≠ []) :
    tOut TState.init glob ≠ [] := by
  cases glob with
  | nil => exact absurd rfl h
  | cons c cs =>
    show tOut ⟨false, false, [], .idle⟩ (c :: cs) ≠ []
    rw [tOut_cons]
    rw [show tStep ⟨false, false, [], .idle⟩ c = tCore ⟨false, false, [], .idle⟩ c from rfl]
    rw [tCore]
    by_cases h1 : c = '\\'
    · rw [if_pos h1]
      dsimp only
      cases cs with
      | nil =>
        show (plainStep '\\' false []).1 ≠ []
        exact plainStep_ne '\\' false []
      | cons c2 cs2 =>
        rw [tOut_cons]
        rw [show (tStep ⟨false, false, [], .esc⟩ c2).2 = ['\\', c2] from rfl]
        simp
    rw [if_neg h1]
    dsimp only
    rw [if_neg Bool.false_ne_true]
    by_cases h2 : isExtglobChar c = true
    · rw [if_pos h2]
      dsimp only
      cases cs with
      | nil =>
        show (plainStep c false []).1 ≠ []
        exact plainStep_ne c false []
      | cons c2 cs2 =>
        rw [tOut_cons]
        rw [tStep]
        dsimp only
        by_cases h3 : c2 = '('
        · rw [if_pos h3]; simp
        rw [if_neg h3]
        by_cases h4 : (c = '*' && c2 = '*') = true
        · rw [if_pos h4]; simp
        · rw [if_neg h4]
          dsimp only
          intro hx
          rw [List.nil_append, List.append_assoc] at hx
          exact plainStep_ne c false [] (List.append_eq_nil.mp hx).1
    · rw [if_neg h2]
      dsimp only
      intro hx
      exact plainStep_ne c false [] (List.append_eq_nil.mp hx).1

theorem obind_some {α β : Type} (a : α) (f : α → Option β) : (some a >>= f) = f a := rfl

theorem obind_none {α β : Type} (f : α → Option β) : ((none : Option α) >>= f) = none := rfl

theorem newRegExp_source (src : List Char) (cr : CompiledRegex)
    (h : newRegExp src = some cr) : cr.source = src := by
  rw [newRegExp] at h
  split at h
  · next r heq => cases h; rfl
  · next heq => cases h

theorem anchored_occurrence_transfer (s : List Char) (alts seq alts' seq' : List Regex)
    (hlev : LevRel alts seq alts' seq')
    (h : reTest (altFinish alts' (.eol :: seq')) s = true) :
    reTest (altFinish alts seq) s = true := by
  rw [reTest_iff] at h ⊢
  obtain ⟨i, j, hi, hsp⟩ := h
  rcases hlev with ⟨ha, ha', hseq⟩ | ⟨as, a, ha, ha', hseq⟩
  · subst ha ha' hseq
    rw [show altFinish [] (Regex.eol :: (seq ++ [Regex.bol]))
        = Regex.cat .bol (seqR seq (.cat .eol .eps)) from by
      rw [show altFinish [] (Regex.eol :: (seq ++ [Regex.bol]))
          = seqR (seq ++ [Regex.bol]) (.cat .eol .eps) from rfl, seqR_snoc]] at hsp
    obtain ⟨k, hb, hX⟩ := (span_cat_iff ..).mp hsp
    obtain ⟨hi0, hk0⟩ := (span_bol_iff ..).mp hb
    subst hi0 hk0
    obtain ⟨j', hsp'⟩ := span_seqR_init s seq (.cat .eol .eps) .eps
      (fun a b _ => ⟨a, Span.eps a⟩) 0 j hX
    exact ⟨0, j', Nat.zero_le _, hsp'⟩
  · subst ha ha'
    rw [hseq] at hsp
    rw [show altFinish (as ++ [Regex.cat .bol a]) (Regex.eol :: seq)
        = Regex.alt (.cat .bol a) (altR as (seqR seq (.cat .eol .eps))) from by
      rw [altFinish_eq_altR, altR_snoc]
      rfl] at hsp
    rcases (span_alt_iff ..).mp hsp with hL | hR
    · obtain ⟨k, hb, hA⟩ := (span_cat_iff ..).mp hL
      obtain ⟨hi0, hk0⟩ := (span_bol_iff ..).mp hb
      subst hi0 hk0
      refine ⟨0, j, Nat.zero_le _, ?_⟩
      rw [show altFinish (as ++ [a]) seq = Regex.alt a (altR as (seqR seq .eps)) from by
        rw [altFinish_eq_altR, altR_snoc]
        rfl]
      exact Span.altl hA
    · obtain ⟨j', hR'⟩ := span_altR_init s as (seqR seq (.cat .eol .eps)) (seqR seq .eps)
        (fun x y hxy => span_seqR_init s seq _ _ (fun u v _ => ⟨u, Span.eps u⟩) x y hxy) i j hR
      refine ⟨i, j', hi, ?_⟩
      rw [show altFinish (as ++ [a]) seq = Regex.alt a (altR as (seqR seq .eps)) from by
        rw [altFinish_eq_altR, altR_snoc]
        rfl]
      exact Span.altr hR'

/-- C4, corrected to nonempty patterns.  For every nonempty pattern without
negation groups, every matcher the anchored compile produces, and every
candidate accepted by it, the unanchored compile also produces a matcher,
that matcher accepts the candidate, and the two stored sources differ
exactly by the `^`/`$` anchors. -/
theorem C4_anchored_implies_unanchored (p : String) (s : List Char)
    (hp : p ≠ "") (hneg : extractNegatedGlobs p.data = [])
    (m : Matcher) (hm : compileGlob p true = some m) (hs : mTest m s = true) :
    ∃ m' : Matcher, compileGlob p false = some m' ∧ mTest m' s = true ∧
      matcherSource m = '^' :: (matcherSource m' ++ ['$']) := by
  have hgd : p.data ≠ [] := by
    intro hx
    apply hp
    cases p with
    | mk l => exact congrArg String.mk hx
  have hnegN : ∀ b : Bool, convertGlobNegationsToRegexF (2 * p.data.length + 3) p.data b = none := by
    intro b
    rw [show 2 * p.data.length + 3 = 2 * p.data.length + 2 + 1 from rfl]
    rw [convertGlobNegationsToRegexF]
    simp [hneg]
  have hbody_ne : convertGlobToRegexStringL p.data false ≠ [] := tOut_init_ne p.data hgd
  have hcompT : compileGlob p true =
      (newRegExp (convertGlobToRegexStringL p.data true)).map .re := by
    show convertGlobToRegexF (2 * p.data.length + 3 + 1) p.data true = _
    rw [convertGlobToRegexF, hnegN true]
    dsimp only
    rw [show (convertGlobToRegexStringL p.data true).isEmpty = false from rfl]
    rw [if_neg Bool.false_ne_true]
  have hcompF : compileGlob p false =
      (newRegExp (convertGlobToRegexStringL p.data false)).map .re := by
    show convertGlobToRegexF (2 * p.data.length + 3 + 1) p.data false = _
    rw [convertGlobToRegexF, hnegN false]
    dsimp only
    have hie : (convertGlobToRegexStringL p.data false).isEmpty = false := by
      cases hb : (convertGlobToRegexStringL p.data false).isEmpty with
      | false => rfl
      | true => exact absurd (List.isEmpty_iff.mp hb) hbody_ne
    rw [hie, if_neg Bool.false_ne_true]
  rw [hcompT] at hm
  cases hcr : newRegExp (convertGlobToRegexStringL p.data true) with
  | none =>
    rw [hcr] at hm
    cases hm
  | some cr =>
    rw [hcr] at hm
    have hmre : Matcher.re cr = m := Option.some.inj hm
    subst hmre
    have hsrcA : cr.source = convertGlobToRegexStringL p.data true :=
      newRegExp_source _ cr hcr
    have h0 : parseRegex ('^' :: (convertGlobToRegexStringL p.data false ++ ['$'])) =
        some cr.ast := by
      have hcp := cr.hparse
      rw [hsrcA] at hcp
      exact hcp
    have hA : (pRun (⟨[], [], [Regex.bol], PMode.norm⟩ : PState)
        (convertGlobToRegexStringL p.data false ++ ['$']) >>= pFinish) = some cr.ast := h0
    rw [pRun_append] at hA
    have htest : reTest cr.ast s = true := hs
    cases h2 : pRun (⟨[], [], [Regex.bol], PMode.norm⟩ : PState)
        (convertGlobToRegexStringL p.data false) with
    | none =>
      rw [h2, obind_none, obind_none] at hA
      cases hA
    | some st2' =>
      rw [h2, obind_some] at hA
      cases h3 : pRun st2' ['$'] with
      | none =>
        rw [h3, obind_none] at hA
        cases hA
      | some st3' =>
        rw [h3, obind_some] at hA
        obtain ⟨hmode3, hstk3, hast⟩ := (pFinish_some_iff st3' cr.ast).mp hA
        rw [pRun_single] at h3
        have hsafe : st2'.mode ≠ .esc := by
          refine tOut_safe p.data ?_ st2' h2
          exact Or.inl rfl
        have hgrp2 : GrpInv st2' := by
          refine pRun_grpInv (convertGlobToRegexStringL p.data false) ?_ h2
          intro hx
          exact absurd hx (by exact fun hy => nomatch hy)
        cases hmode2 : st2'.mode with
        | esc => exact absurd hmode2 hsafe
        | grpOpenQ =>
          rw [pStep, hmode2] at h3
          dsimp only at h3
          rw [if_neg (by decide)] at h3
          cases h3
        | inCls ccs =>
          rw [pStep, hmode2] at h3
          dsimp only at h3
          cases hcs : clsStep ccs '$' with
          | err => rw [hcs] at h3; cases h3
          | close n items =>
            exact absurd (clsStep_close_imp ccs '$' n items hcs) (by decide)
          | cont cs' =>
            rw [hcs] at h3
            cases h3
            exact absurd hmode3 (by exact fun hy => nomatch hy)
        | grpOpen =>
          rw [pStep, hmode2] at h3
          dsimp only at h3
          rw [if_neg (by decide)] at h3
          have hsn : stepNorm { st2' with mode := PMode.norm } '$' =
              some { st2' with mode := PMode.norm, seq := Regex.eol :: st2'.seq } := by
            simp [stepNorm]
          rw [hsn] at h3
          cases h3
          exact absurd (show st2'.stack = [] from hstk3) (hgrp2 hmode2)
        | norm =>
          rw [pStep, hmode2] at h3
          dsimp only at h3
          have hsn : stepNorm st2' '$' =
              some { st2' with seq := Regex.eol :: st2'.seq } := by
            simp [stepNorm]
          rw [hsn] at h3
          cases h3
          have hob := pRun_botRel (convertGlobToRegexStringL p.data false)
            (show BotRel pInit ⟨[], [], [Regex.bol], PMode.norm⟩ from
              ⟨rfl, Or.inl ⟨rfl, rfl, Or.inl ⟨rfl, rfl, rfl⟩⟩⟩)
          rw [h2] at hob
          cases hx : pRun pInit (convertGlobToRegexStringL p.data false) with
          | none =>
            rw [hx] at hob
            exact hob.elim
          | some st2 =>
            rw [hx] at hob
            obtain ⟨hmodeEq, hcase⟩ := hob
            have hmode2un : st2.mode = .norm := by
              rw [hmode2] at hmodeEq
              exact hmodeEq.symm
            rcases hcase with ⟨hstk2, hstk2', hlev⟩ | ⟨fs, f, f', hB1, hB2, _, _, _⟩
            · have hfin2 : pFinish st2 = some (altFinish st2.alts st2.seq) :=
                (pFinish_some_iff st2 _).mpr ⟨hmode2un, hstk2, rfl⟩
              have hparseU : parseRegex (convertGlobToRegexStringL p.data false) =
                  some (altFinish st2.alts st2.seq) := by
                rw [parseRegex_eq_pRun, hx, obind_some]
                exact hfin2
              obtain ⟨cr', hcr', hsrc', hast'⟩ := newRegExp_parse hparseU
              refine ⟨.re cr', ?_, ?_, ?_⟩
              · rw [hcompF, hcr']
                rfl
              · show reTest cr'.ast s = true
                rw [hast']
                rw [hast] at htest
                exact anchored_occurrence_transfer s st2.alts st2.seq
                  st2'.alts st2'.seq hlev htest
              · show cr.source = '^' :: (cr'.source ++ ['$'])
                rw [hsrcA, hsrc']
                rfl
            · have hB : st2'.stack = [] := hstk3
              rw [hB2] at hB
              simp at hB

/-- C4, counterexample to the unrestricted claim.  The empty pattern has no
negation groups and its anchored compile produces a matcher accepting the
empty candidate, yet the unanchored compile returns null (its regex source
is empty), so the anchored-to-unanchored transfer fails at `p = ""`. -/
theorem C4_counterexample :
    (∃ m : Matcher, compileGlob "" true = some m ∧ mTest m "".data = true) ∧
    compileGlob "" false = none := by
  constructor
  · refine ⟨.re ⟨"^$".data, .cat .bol (.cat .eol .eps), by decide⟩, ?_, ?_⟩
    · rfl
    · decide
  · rfl

/-- C4, witness: the corrected statement applied to the concrete pattern `a`
and candidate `a`. -/
theorem C4_witness :
    ∃ m' : Matcher, compileGlob "a" false = some m' ∧ mTest m' "a".data = true ∧
      matcherSource (Matcher.re ⟨"^a$".data, .cat .bol (.cat (.lit 'a') (.cat .eol .eps)),
        by decide⟩) = '^' :: (matcherSource m' ++ ['$']) :=
  C4_anchored_implies_unanchored "a" "a".data (by decide) (by decide)
    (Matcher.re ⟨"^a$".data, .cat .bol (.cat (.lit 'a') (.cat .eol .eps)), by decide⟩)
    rfl (by decide)

end BookOfSpells
